import Mathlib

/-!
Verification of the ordered-object library (`object.go`).

The library is an insertion-ordered JSON object container together with a
streaming JSON codec.  This development embeds the container operations and
the codec shallowly: the entry sequence is a `List`, machine slices are
lists, the external token encoder/decoder (`jsontext`) is modelled as a
token list, and the external generic marshaller/unmarshaller of the host
(`json.MarshalEncode` with the `Deterministic` option, `json.UnmarshalDecode`
into `any`) is modelled over an inductive JSON value universe.
-/

set_option maxHeartbeats 1000000

namespace OrderedObject

variable {V : Type}

/-- A key-value pair; `Entry[V]` in `object.go`. -/
structure Entry (V : Type) where
  Key : String
  Value : V
deriving DecidableEq

/-- The ordered object, `Object[V]` in `object.go`: a sequence of entries. -/
structure Object (V : Type) where
  entries : List (Entry V)
deriving DecidableEq

/-- The scan loop of `findKeyIndex`: index of the first entry whose key equals
`key`, counting upward from `i`, or `-1` when no entry matches. -/
def findKeyIndexAux (key : String) : List (Entry V) → Int → Int
  | [], _ => -1
  | e :: rest, i => if e.Key = key then i else findKeyIndexAux key rest (i + 1)

/-- `findKeyIndex`: the index of the key in the entries slice, or `-1` if not
found (`object.go` lines 71-78). -/
def Object.findKeyIndex (o : Object V) (key : String) : Int :=
  findKeyIndexAux key o.entries 0

/-- The in-place slice update `object.entries[idx].Value = value`. -/
def setValueAt : List (Entry V) → Nat → V → List (Entry V)
  | [], _, _ => []
  | e :: rest, 0, v => ⟨e.Key, v⟩ :: rest
  | e :: rest, i + 1, v => e :: setValueAt rest i v

/-- `Set` (`object.go` lines 84-91): overwrite the value at the existing
position when the key is present, else append the pair at the end. -/
def Object.set (o : Object V) (key : String) (value : V) : Object V :=
  let idx := o.findKeyIndex key
  if 0 ≤ idx then ⟨setValueAt o.entries idx.toNat value⟩
  else ⟨o.entries ++ [⟨key, value⟩]⟩

/-- `Get` (`object.go` lines 95-101); `none` models the `(zero, false)` return. -/
def Object.get (o : Object V) (key : String) : Option V :=
  let idx := o.findKeyIndex key
  if 0 ≤ idx then (o.entries[idx.toNat]?).map (·.Value) else none

/-- `Has` (`object.go` lines 104-106). -/
def Object.has (o : Object V) (key : String) : Bool :=
  0 ≤ o.findKeyIndex key

/-- `Delete` (`object.go` lines 111-116): `append(entries[:idx], entries[idx+1:]...)`
when the key is present, a no-op when absent. -/
def Object.delete (o : Object V) (key : String) : Object V :=
  let idx := o.findKeyIndex key
  if 0 ≤ idx then ⟨o.entries.take idx.toNat ++ o.entries.drop (idx.toNat + 1)⟩
  else o

/-- `Length` (`object.go` lines 119-121). -/
def Object.length (o : Object V) : Nat := o.entries.length

/-- `Keys` (`object.go` lines 124-130): the keys, in stored order. -/
def Object.keys (o : Object V) : List String := o.entries.map (·.Key)

/-- `Values` (`object.go` lines 133-139): the values, in stored order. -/
def Object.values (o : Object V) : List V := o.entries.map (·.Value)

/-- `Clone` (`object.go` lines 156-160) at the value level: same entry
sequence in a new container.  Freshness of the backing storage is modelled
separately in the heap layer below. -/
def Object.clone (o : Object V) : Object V := ⟨o.entries⟩

/-! Characterisation of the linear scan. -/

theorem findKeyIndexAux_of_forall_ne {key : String} :
    ∀ (l : List (Entry V)) (i : Int), (∀ e ∈ l, e.Key ≠ key) →
      findKeyIndexAux key l i = -1 := by
  intro l
  induction l with
  | nil => intro i _; rfl
  | cons e rest ih =>
      intro i h
      have he : e.Key ≠ key := h e (List.mem_cons_self e rest)
      simp only [findKeyIndexAux, if_neg he]
      exact ih (i + 1) fun x hx => h x (List.mem_cons_of_mem e hx)

theorem findKeyIndexAux_append_hit {key : String} (v : V) :
    ∀ (pre post : List (Entry V)) (i : Int), (∀ e ∈ pre, e.Key ≠ key) →
      findKeyIndexAux key (pre ++ ⟨key, v⟩ :: post) i = i + pre.length := by
  intro pre
  induction pre with
  | nil =>
      intro post i _
      simp [findKeyIndexAux]
  | cons e rest ih =>
      intro post i h
      have he : e.Key ≠ key := h e (List.mem_cons_self e rest)
      simp only [List.cons_append, findKeyIndexAux, if_neg he, List.append_eq]
      rw [ih post (i + 1) fun x hx => h x (List.mem_cons_of_mem e hx)]
      simp only [List.length_cons]
      push_cast
      ring

theorem setValueAt_append (v' : V) :
    ∀ (pre : List (Entry V)) (e : Entry V) (post : List (Entry V)),
      setValueAt (pre ++ e :: post) pre.length v' = pre ++ ⟨e.Key, v'⟩ :: post := by
  intro pre
  induction pre with
  | nil => intro e post; rfl
  | cons x rest ih =>
      intro e post
      simp only [List.cons_append, List.length_cons, setValueAt, List.append_eq]
      rw [ih e post]

theorem keys_setValueAt (v' : V) :
    ∀ (l : List (Entry V)) (i : Nat),
      (setValueAt l i v').map (·.Key) = l.map (·.Key) := by
  intro l
  induction l with
  | nil => intro i; rfl
  | cons e rest ih =>
      intro i
      cases i with
      | zero => simp [setValueAt]
      | succ j => simp [setValueAt, ih j]

/-- C3: `Set` on a key present at position `p` (the position of its first
occurrence) rewrites only the value slot at `p`, keeping every other entry,
the key's position and the length; `Set` on an absent key appends the new
pair at the end, keeping all existing entries in place. -/
theorem set_existing_in_place_absent_appends (o : Object V) (k : String) (v' : V) :
    (∀ pre v0 post, o.entries = pre ++ ⟨k, v0⟩ :: post → (∀ e ∈ pre, e.Key ≠ k) →
        (o.set k v').entries = pre ++ ⟨k, v'⟩ :: post ∧
        (o.set k v').entries.length = o.entries.length) ∧
    ((∀ e ∈ o.entries, e.Key ≠ k) →
        (o.set k v').entries = o.entries ++ [⟨k, v'⟩]) := by
  constructor
  · intro pre v0 post hsplit hfresh
    have hidx : o.findKeyIndex k = (pre.length : Int) := by
      rw [Object.findKeyIndex, hsplit, findKeyIndexAux_append_hit v0 pre post 0 hfresh]
      ring
    have hnonneg : 0 ≤ o.findKeyIndex k := by rw [hidx]; positivity
    have htoNat : (o.findKeyIndex k).toNat = pre.length := by rw [hidx]; rfl
    have hmain : (o.set k v').entries = pre ++ ⟨k, v'⟩ :: post := by
      simp only [Object.set, if_pos hnonneg, htoNat, hsplit]
      exact setValueAt_append v' pre ⟨k, v0⟩ post
    refine ⟨hmain, ?_⟩
    rw [hmain, hsplit]
    simp
  · intro habsent
    have hidx : o.findKeyIndex k = -1 :=
      findKeyIndexAux_of_forall_ne o.entries 0 habsent
    have hneg : ¬ 0 ≤ o.findKeyIndex k := by rw [hidx]; decide
    simp [Object.set, if_neg hneg]

/-- Witness for C3 at concrete inputs: an update in place and an append. -/
theorem set_existing_in_place_absent_appends_witness :
    ((Object.mk [⟨"a", 1⟩, ⟨"b", 2⟩, ⟨"c", 3⟩] : Object Nat).set "b" 99).entries
        = [⟨"a", 1⟩, ⟨"b", 99⟩, ⟨"c", 3⟩] ∧
    ((Object.mk [⟨"a", 1⟩] : Object Nat).set "d" 4).entries
        = [⟨"a", 1⟩, ⟨"d", 4⟩] := by
  constructor
  · exact ((set_existing_in_place_absent_appends
        (Object.mk [⟨"a", 1⟩, ⟨"b", 2⟩, ⟨"c", 3⟩]) "b" 99).1
        [⟨"a", 1⟩] 2 [⟨"c", 3⟩] (by decide) (by decide)).1
  · exact (set_existing_in_place_absent_appends
        (Object.mk [⟨"a", 1⟩]) "d" 4).2 (by decide)

/-- C4: `Delete` on a key present at position `p` (first occurrence) removes
exactly that entry — the entries before `p` stay, those after `p` shift one
step toward the front — and the length drops by one; `Delete` on an absent
key returns the container unchanged.  Both branches are total. -/
theorem delete_existing_splices_absent_noop (o : Object V) (k : String) :
    (∀ pre v0 post, o.entries = pre ++ ⟨k, v0⟩ :: post → (∀ e ∈ pre, e.Key ≠ k) →
        (o.delete k).entries = pre ++ post ∧
        (o.delete k).entries.length + 1 = o.entries.length) ∧
    ((∀ e ∈ o.entries, e.Key ≠ k) → o.delete k = o) := by
  constructor
  · intro pre v0 post hsplit hfresh
    have hidx : o.findKeyIndex k = (pre.length : Int) := by
      rw [Object.findKeyIndex, hsplit, findKeyIndexAux_append_hit v0 pre post 0 hfresh]
      ring
    have hnonneg : 0 ≤ o.findKeyIndex k := by rw [hidx]; positivity
    have htoNat : (o.findKeyIndex k).toNat = pre.length := by rw [hidx]; rfl
    have htake : (pre ++ ⟨k, v0⟩ :: post).take pre.length = pre := List.take_left pre _
    have hdrop : (pre ++ ⟨k, v0⟩ :: post).drop (pre.length + 1) = post := by
      have h1 : pre ++ Entry.mk k v0 :: post = (pre ++ [⟨k, v0⟩]) ++ post := by simp
      have h2 : (pre ++ [Entry.mk k v0]).length = pre.length + 1 := by simp
      rw [h1, ← h2, List.drop_left]
    have hmain : (o.delete k).entries = pre ++ post := by
      simp only [Object.delete, if_pos hnonneg, htoNat, hsplit, htake, hdrop]
    refine ⟨hmain, ?_⟩
    rw [hmain, hsplit]
    simp
    omega
  · intro habsent
    have hidx : o.findKeyIndex k = -1 :=
      findKeyIndexAux_of_forall_ne o.entries 0 habsent
    have hneg : ¬ 0 ≤ o.findKeyIndex k := by rw [hidx]; decide
    simp [Object.delete, if_neg hneg]

/-- Witness for C4 at concrete inputs: a mid-sequence splice and a no-op. -/
theorem delete_existing_splices_absent_noop_witness :
    ((Object.mk [⟨"a", 1⟩, ⟨"b", 2⟩, ⟨"c", 3⟩] : Object Nat).delete "b").entries
        = [⟨"a", 1⟩, ⟨"c", 3⟩] ∧
    (Object.mk [⟨"a", 1⟩] : Object Nat).delete "x" = Object.mk [⟨"a", 1⟩] := by
  constructor
  · exact ((delete_existing_splices_absent_noop
        (Object.mk [⟨"a", 1⟩, ⟨"b", 2⟩, ⟨"c", 3⟩]) "b").1
        [⟨"a", 1⟩] 2 [⟨"c", 3⟩] (by decide) (by decide)).1
  · exact (delete_existing_splices_absent_noop
        (Object.mk [⟨"a", 1⟩]) "x").2 (by decide)

/-! The JSON value universe for the codec claims.

The container is generic; the codec claims are stated at `V` instantiated
with a JSON value universe.  `obj` is a nested ordered container (a value
that carries the `OrderedMarshaler` capability); `map` is a plain unordered
host mapping (`map[string]V`), which the host generic marshaller emits with
sorted keys in deterministic mode.  Numbers are restricted to integers and
strings to plain (escape-free) text; within that sub-universe the embedding
matches the code. -/

inductive JValue where
  | null
  | bool (b : Bool)
  | num (n : Int)
  | str (s : String)
  | arr (elems : List JValue)
  | obj (entries : List (Entry JValue))
  | map (pairs : List (String × JValue))

/-- One JSON token of the external `jsontext` token codec. -/
inductive Token where
  | beginObject
  | endObject
  | beginArray
  | endArray
  | str (s : String)
  | num (n : Int)
  | bool (b : Bool)
  | null
deriving DecidableEq

/-- The `jsontext` kind byte of a token: one of the nine kind characters. -/
def Token.kind : Token → Char
  | .beginObject => '{'
  | .endObject => '}'
  | .beginArray => '['
  | .endArray => ']'
  | .str _ => '"'
  | .num _ => '0'
  | .bool true => 't'
  | .bool false => 'f'
  | .null => 'n'

/-- Insertion step of the deterministic key ordering: place `p` before the
first pair whose key is not smaller. -/
def insertPair (p : String × JValue) : List (String × JValue) → List (String × JValue)
  | [] => [p]
  | q :: rest => if p.1 ≤ q.1 then p :: q :: rest else q :: insertPair p rest

/-- Modelled from the spec: the stable key order the host generic marshaller
uses for plain mappings in deterministic mode (sorted by key). -/
def sortPairs : List (String × JValue) → List (String × JValue)
  | [] => []
  | p :: rest => insertPair p (sortPairs rest)

theorem sizeOf_insertPair (p : String × JValue) :
    ∀ l : List (String × JValue), sizeOf (insertPair p l) = 1 + sizeOf p + sizeOf l := by
  intro l
  induction l with
  | nil => simp [insertPair]
  | cons q rest ih =>
      simp only [insertPair]
      split <;> simp only [List.cons.sizeOf_spec, ih] <;> omega

theorem sizeOf_sortPairs :
    ∀ l : List (String × JValue), sizeOf (sortPairs l) = sizeOf l := by
  intro l
  induction l with
  | nil => rfl
  | cons p rest ih =>
      simp only [sortPairs, sizeOf_insertPair, ih, List.cons.sizeOf_spec]

/-- The external token encoder (`jsontext.Encoder`), modelled as the sequence
of tokens written so far; `WriteToken` appends (a buffer sink never fails). -/
structure Encoder where
  out : List Token
deriving DecidableEq

/-- `WriteToken` of the external encoder. -/
def Encoder.writeToken (enc : Encoder) (t : Token) : Encoder := ⟨enc.out ++ [t]⟩

mutual

/-- The entry loop of `MarshalJSONTo` (`object.go` lines 177-193): for each
entry in stored order, write the key string token, then the value. -/
def marshalEntriesTo : List (Entry JValue) → Encoder → Encoder
  | [], enc => enc
  | ⟨k, v⟩ :: rest, enc => marshalEntriesTo rest (writeValueTo v (enc.writeToken (.str k)))
termination_by l _ => 2 * sizeOf l
decreasing_by
  all_goals simp [List.cons.sizeOf_spec, Entry.mk.sizeOf_spec, Prod.mk.sizeOf_spec,
    JValue.obj.sizeOf_spec, JValue.arr.sizeOf_spec, JValue.map.sizeOf_spec, sizeOf_sortPairs]
  all_goals omega

/-- The value dispatch of `MarshalJSONTo` (`object.go` lines 182-192): a
value carrying the `OrderedMarshaler` capability (a nested ordered object)
writes itself through its own `MarshalJSONTo`; every other value goes to the
host generic marshaller in deterministic mode. -/
def writeValueTo : JValue → Encoder → Encoder
  | .obj es, enc =>
      (marshalEntriesTo es (enc.writeToken .beginObject)).writeToken .endObject
  | .null, enc => marshalEncode .null enc
  | .bool b, enc => marshalEncode (.bool b) enc
  | .num n, enc => marshalEncode (.num n) enc
  | .str s, enc => marshalEncode (.str s) enc
  | .arr xs, enc => marshalEncode (.arr xs) enc
  | .map ps, enc => marshalEncode (.map ps) enc
termination_by v _ => 2 * sizeOf v + 1
decreasing_by
  all_goals simp [List.cons.sizeOf_spec, Entry.mk.sizeOf_spec, Prod.mk.sizeOf_spec,
    JValue.obj.sizeOf_spec, JValue.arr.sizeOf_spec, JValue.map.sizeOf_spec, sizeOf_sortPairs]
  all_goals omega

/-- Modelled from the spec: the host generic marshaller in deterministic mode
(`json.MarshalEncode` with `json.Deterministic(true)`).  Scalars become their
tokens, arrays emit elementwise, plain mappings emit with sorted keys, and a
value carrying the ordered-emission capability writes itself. -/
def marshalEncode : JValue → Encoder → Encoder
  | .null, enc => enc.writeToken .null
  | .bool b, enc => enc.writeToken (.bool b)
  | .num n, enc => enc.writeToken (.num n)
  | .str s, enc => enc.writeToken (.str s)
  | .arr xs, enc => (marshalArrTo xs (enc.writeToken .beginArray)).writeToken .endArray
  | .obj es, enc =>
      (marshalEntriesTo es (enc.writeToken .beginObject)).writeToken .endObject
  | .map ps, enc =>
      (marshalPairsTo (sortPairs ps) (enc.writeToken .beginObject)).writeToken .endObject
termination_by v _ => 2 * sizeOf v
decreasing_by
  all_goals simp [List.cons.sizeOf_spec, Entry.mk.sizeOf_spec, Prod.mk.sizeOf_spec,
    JValue.obj.sizeOf_spec, JValue.arr.sizeOf_spec, JValue.map.sizeOf_spec, sizeOf_sortPairs]
  all_goals omega

/-- Array elements, marshalled in order by the host generic marshaller. -/
def marshalArrTo : List JValue → Encoder → Encoder
  | [], enc => enc
  | v :: rest, enc => marshalArrTo rest (writeValueTo v enc)
termination_by l _ => 2 * sizeOf l
decreasing_by
  all_goals simp [List.cons.sizeOf_spec, Entry.mk.sizeOf_spec, Prod.mk.sizeOf_spec,
    JValue.obj.sizeOf_spec, JValue.arr.sizeOf_spec, JValue.map.sizeOf_spec, sizeOf_sortPairs]
  all_goals omega

/-- Mapping pairs, marshalled in (already sorted) order. -/
def marshalPairsTo : List (String × JValue) → Encoder → Encoder
  | [], enc => enc
  | (k, v) :: rest, enc => marshalPairsTo rest (writeValueTo v (enc.writeToken (.str k)))
termination_by l _ => 2 * sizeOf l
decreasing_by
  all_goals simp [List.cons.sizeOf_spec, Entry.mk.sizeOf_spec, Prod.mk.sizeOf_spec,
    JValue.obj.sizeOf_spec, JValue.arr.sizeOf_spec, JValue.map.sizeOf_spec, sizeOf_sortPairs]
  all_goals omega

end

/-- `MarshalJSONTo` (`object.go` lines 173-195): BeginObject, the entry loop,
EndObject. -/
def Object.marshalJSONTo (o : Object JValue) (enc : Encoder) : Encoder :=
  (marshalEntriesTo o.entries (enc.writeToken .beginObject)).writeToken .endObject

mutual

/-- The flat token-sequence description of the entry loop: for each entry in
order, the key's string token followed by its value's tokens. -/
def entryTokens : List (Entry JValue) → List Token
  | [] => []
  | ⟨k, v⟩ :: rest => Token.str k :: valueTokens v ++ entryTokens rest
termination_by l => 2 * sizeOf l
decreasing_by
  all_goals simp [List.cons.sizeOf_spec, Entry.mk.sizeOf_spec, Prod.mk.sizeOf_spec,
    JValue.obj.sizeOf_spec, JValue.arr.sizeOf_spec, JValue.map.sizeOf_spec, sizeOf_sortPairs]
  all_goals omega

/-- The flat token sequence one value contributes, under the marshal
dispatch: a nested ordered object emits its own entries in their stored
order, any other value emits as the deterministic generic marshaller does. -/
def valueTokens : JValue → List Token
  | .obj es => Token.beginObject :: entryTokens es ++ [Token.endObject]
  | .null => genericTokens .null
  | .bool b => genericTokens (.bool b)
  | .num n => genericTokens (.num n)
  | .str s => genericTokens (.str s)
  | .arr xs => genericTokens (.arr xs)
  | .map ps => genericTokens (.map ps)
termination_by v => 2 * sizeOf v + 1
decreasing_by
  all_goals simp [List.cons.sizeOf_spec, Entry.mk.sizeOf_spec, Prod.mk.sizeOf_spec,
    JValue.obj.sizeOf_spec, JValue.arr.sizeOf_spec, JValue.map.sizeOf_spec, sizeOf_sortPairs]
  all_goals omega

/-- The flat token sequence of the deterministic generic marshaller. -/
def genericTokens : JValue → List Token
  | .null => [.null]
  | .bool b => [.bool b]
  | .num n => [.num n]
  | .str s => [.str s]
  | .arr xs => Token.beginArray :: arrTokens xs ++ [Token.endArray]
  | .obj es => Token.beginObject :: entryTokens es ++ [Token.endObject]
  | .map ps => Token.beginObject :: pairTokens (sortPairs ps) ++ [Token.endObject]
termination_by v => 2 * sizeOf v
decreasing_by
  all_goals simp [List.cons.sizeOf_spec, Entry.mk.sizeOf_spec, Prod.mk.sizeOf_spec,
    JValue.obj.sizeOf_spec, JValue.arr.sizeOf_spec, JValue.map.sizeOf_spec, sizeOf_sortPairs]
  all_goals omega

/-- Flat token sequence of array elements, in order. -/
def arrTokens : List JValue → List Token
  | [] => []
  | v :: rest => valueTokens v ++ arrTokens rest
termination_by l => 2 * sizeOf l
decreasing_by
  all_goals simp [List.cons.sizeOf_spec, Entry.mk.sizeOf_spec, Prod.mk.sizeOf_spec,
    JValue.obj.sizeOf_spec, JValue.arr.sizeOf_spec, JValue.map.sizeOf_spec, sizeOf_sortPairs]
  all_goals omega

/-- Flat token sequence of mapping pairs, in the given order. -/
def pairTokens : List (String × JValue) → List Token
  | [] => []
  | (k, v) :: rest => Token.str k :: valueTokens v ++ pairTokens rest
termination_by l => 2 * sizeOf l
decreasing_by
  all_goals simp [List.cons.sizeOf_spec, Entry.mk.sizeOf_spec, Prod.mk.sizeOf_spec,
    JValue.obj.sizeOf_spec, JValue.arr.sizeOf_spec, JValue.map.sizeOf_spec, sizeOf_sortPairs]
  all_goals omega

end

mutual

theorem marshalEntriesTo_out : ∀ (l : List (Entry JValue)) (enc : Encoder),
    marshalEntriesTo l enc = ⟨enc.out ++ entryTokens l⟩
  | [], enc => by simp [marshalEntriesTo, entryTokens]
  | ⟨k, v⟩ :: rest, enc => by
      rw [marshalEntriesTo, writeValueTo_out v, marshalEntriesTo_out rest]
      simp [entryTokens, Encoder.writeToken]
termination_by l _ => 2 * sizeOf l
decreasing_by
  all_goals simp [List.cons.sizeOf_spec, Entry.mk.sizeOf_spec, Prod.mk.sizeOf_spec,
    JValue.obj.sizeOf_spec, JValue.arr.sizeOf_spec, JValue.map.sizeOf_spec, sizeOf_sortPairs]
  all_goals omega

theorem writeValueTo_out : ∀ (v : JValue) (enc : Encoder),
    writeValueTo v enc = ⟨enc.out ++ valueTokens v⟩
  | .obj es, enc => by
      rw [writeValueTo, marshalEntriesTo_out es]
      simp [valueTokens, Encoder.writeToken]
  | .null, enc => by rw [writeValueTo, marshalEncode_out, valueTokens]
  | .bool b, enc => by rw [writeValueTo, marshalEncode_out, valueTokens]
  | .num n, enc => by rw [writeValueTo, marshalEncode_out, valueTokens]
  | .str s, enc => by rw [writeValueTo, marshalEncode_out, valueTokens]
  | .arr xs, enc => by rw [writeValueTo, marshalEncode_out, valueTokens]
  | .map ps, enc => by rw [writeValueTo, marshalEncode_out, valueTokens]
termination_by v _ => 2 * sizeOf v + 1
decreasing_by
  all_goals simp [List.cons.sizeOf_spec, Entry.mk.sizeOf_spec, Prod.mk.sizeOf_spec,
    JValue.obj.sizeOf_spec, JValue.arr.sizeOf_spec, JValue.map.sizeOf_spec, sizeOf_sortPairs]
  all_goals omega

theorem marshalEncode_out : ∀ (v : JValue) (enc : Encoder),
    marshalEncode v enc = ⟨enc.out ++ genericTokens v⟩
  | .null, enc => by simp [marshalEncode, genericTokens, Encoder.writeToken]
  | .bool b, enc => by simp [marshalEncode, genericTokens, Encoder.writeToken]
  | .num n, enc => by simp [marshalEncode, genericTokens, Encoder.writeToken]
  | .str s, enc => by simp [marshalEncode, genericTokens, Encoder.writeToken]
  | .arr xs, enc => by
      rw [marshalEncode, marshalArrTo_out xs]
      simp [genericTokens, Encoder.writeToken]
  | .obj es, enc => by
      rw [marshalEncode, marshalEntriesTo_out es]
      simp [genericTokens, Encoder.writeToken]
  | .map ps, enc => by
      rw [marshalEncode, marshalPairsTo_out (sortPairs ps)]
      simp [genericTokens, Encoder.writeToken]
termination_by v _ => 2 * sizeOf v
decreasing_by
  all_goals simp [List.cons.sizeOf_spec, Entry.mk.sizeOf_spec, Prod.mk.sizeOf_spec,
    JValue.obj.sizeOf_spec, JValue.arr.sizeOf_spec, JValue.map.sizeOf_spec, sizeOf_sortPairs]
  all_goals omega

theorem marshalArrTo_out : ∀ (l : List JValue) (enc : Encoder),
    marshalArrTo l enc = ⟨enc.out ++ arrTokens l⟩
  | [], enc => by simp [marshalArrTo, arrTokens]
  | v :: rest, enc => by
      rw [marshalArrTo, writeValueTo_out v, marshalArrTo_out rest]
      simp [arrTokens]
termination_by l _ => 2 * sizeOf l
decreasing_by
  all_goals simp [List.cons.sizeOf_spec, Entry.mk.sizeOf_spec, Prod.mk.sizeOf_spec,
    JValue.obj.sizeOf_spec, JValue.arr.sizeOf_spec, JValue.map.sizeOf_spec, sizeOf_sortPairs]
  all_goals omega

theorem marshalPairsTo_out : ∀ (l : List (String × JValue)) (enc : Encoder),
    marshalPairsTo l enc = ⟨enc.out ++ pairTokens l⟩
  | [], enc => by simp [marshalPairsTo, pairTokens]
  | (k, v) :: rest, enc => by
      rw [marshalPairsTo, writeValueTo_out v, marshalPairsTo_out rest]
      simp [pairTokens, Encoder.writeToken]
termination_by l _ => 2 * sizeOf l
decreasing_by
  all_goals simp [List.cons.sizeOf_spec, Entry.mk.sizeOf_spec, Prod.mk.sizeOf_spec,
    JValue.obj.sizeOf_spec, JValue.arr.sizeOf_spec, JValue.map.sizeOf_spec, sizeOf_sortPairs]
  all_goals omega

end

theorem entryTokens_eq_flatMap (l : List (Entry JValue)) :
    entryTokens l = l.flatMap fun e => Token.str e.Key :: valueTokens e.Value := by
  induction l with
  | nil => simp [entryTokens]
  | cons e rest ih =>
      obtain ⟨k, v⟩ := e
      simp [entryTokens, ih]

/-- C1: `MarshalJSONTo` emits exactly one BeginObject token, then for each
entry in stored sequence order the entry's key as a String token followed by
the entry's value tokens — written by the value's own `MarshalJSONTo` when
the value carries the `OrderedMarshaler` capability, and by the host generic
marshaller in deterministic mode otherwise — and finally one EndObject token.
In particular the key tokens appear exactly in the container's stored
(insertion) order. -/
theorem marshalJSONTo_token_stream (o : Object JValue) (enc : Encoder) :
    (o.marshalJSONTo enc).out
      = enc.out ++ Token.beginObject
          :: (o.entries.flatMap fun e => Token.str e.Key :: valueTokens e.Value)
          ++ [Token.endObject] := by
  rw [Object.marshalJSONTo, marshalEntriesTo_out o.entries, ← entryTokens_eq_flatMap]
  simp [Encoder.writeToken]

/-! The decode path: `UnmarshalJSONFrom` over the external token stream. -/

/-- Decode-side errors: the two structural errors of `object.go` (lines
14-19), carrying the observed token kind as the wrapped message does, plus
the pass-through errors of the external token reader (`eof`), of the host
generic value unmarshaller (`valueError`), and the artificial fuel bound. -/
inductive DecodeError where
  | eof
  | valueError
  | outOfFuel
  | invalidToken
  | expectedObjectStart (kind : Char)
  | expectedStringKey (kind : Char)
deriving DecidableEq

/-- `ReadToken` of the external token decoder: consume and return the next
token, or the end-of-input error. -/
def readToken : List Token → Except DecodeError (Token × List Token)
  | [] => .error .eof
  | t :: ts => .ok (t, ts)

/-- `PeekKind` of the external token decoder: the next token's kind without
consuming it, and the zero (invalid) kind on exhausted input. -/
def peekKind : List Token → Char
  | [] => Char.ofNat 0
  | t :: _ => t.kind

/-- Modelled from the spec: assignment `m[k] = v` into the host's unordered
mapping — overwrite the value of an existing key, else add the pair. -/
def mapInsert (k : String) (v : JValue) : List (String × JValue) → List (String × JValue)
  | [] => [(k, v)]
  | (k', v') :: rest => if k' = k then (k, v) :: rest else (k', v') :: mapInsert k v rest

mutual

/-- Modelled from the spec: the host generic value unmarshaller
(`json.UnmarshalDecode` into a dynamic value): a scalar token becomes the
scalar, an array decodes elementwise in order, an object decodes into the
host's unordered mapping where a repeated key overwrites its earlier value.
`fuel` only bounds the recursion; callers supply more than the input length. -/
def decodeValue : Nat → List Token → Except DecodeError (JValue × List Token)
  | 0, _ => .error .outOfFuel
  | f + 1, ts =>
    match readToken ts with
    | .error e => .error e
    | .ok (t, ts1) =>
      match t with
      | .null => .ok (.null, ts1)
      | .bool b => .ok (.bool b, ts1)
      | .num n => .ok (.num n, ts1)
      | .str s => .ok (.str s, ts1)
      | .beginArray => decodeArr f [] ts1
      | .beginObject => decodeMap f [] ts1
      | _ => .error .valueError

/-- Array elements of the host generic unmarshaller. -/
def decodeArr : Nat → List JValue → List Token → Except DecodeError (JValue × List Token)
  | 0, _, _ => .error .outOfFuel
  | f + 1, acc, ts =>
    if peekKind ts = ']' then
      match readToken ts with
      | .error e => .error e
      | .ok (_, ts1) => .ok (.arr acc, ts1)
    else
      match decodeValue f ts with
      | .error e => .error e
      | .ok (v, ts1) => decodeArr f (acc ++ [v]) ts1

/-- Object members of the host generic unmarshaller, accumulated into the
host's unordered mapping. -/
def decodeMap : Nat → List (String × JValue) → List Token →
    Except DecodeError (JValue × List Token)
  | 0, _, _ => .error .outOfFuel
  | f + 1, acc, ts =>
    if peekKind ts = '}' then
      match readToken ts with
      | .error e => .error e
      | .ok (_, ts1) => .ok (.map acc, ts1)
    else
      match readToken ts with
      | .error e => .error e
      | .ok (t, ts1) =>
        match t with
        | .str k =>
          match decodeValue f ts1 with
          | .error e => .error e
          | .ok (v, ts2) => decodeMap f (mapInsert k v acc) ts2
        | _ => .error .valueError

end

/-- The host generic unmarshaller at its call sites: fuel larger than the
input length, which the recursion never exhausts. -/
def decodeValueTop (ts : List Token) : Except DecodeError (JValue × List Token) :=
  decodeValue (ts.length + 1) ts

mutual

theorem decodeValue_consumes : ∀ (f : Nat) (ts : List Token) (v : JValue) (r : List Token),
    decodeValue f ts = .ok (v, r) → r.length < ts.length
  | 0, ts, v, r => by intro h; simp [decodeValue] at h
  | f + 1, ts, v, r => by
      intro h
      match ts with
      | [] => simp [decodeValue, readToken] at h
      | t :: ts1 =>
          simp only [decodeValue, readToken] at h
          cases t with
          | null => simp_all
          | bool b => simp_all
          | num n => simp_all
          | str s => simp_all
          | beginArray =>
              have := decodeArr_consumes f [] ts1 v r h
              simp only [List.length_cons]
              omega
          | beginObject =>
              have := decodeMap_consumes f [] ts1 v r h
              simp only [List.length_cons]
              omega
          | endArray => simp_all
          | endObject => simp_all

theorem decodeArr_consumes : ∀ (f : Nat) (acc : List JValue) (ts : List Token)
    (v : JValue) (r : List Token),
    decodeArr f acc ts = .ok (v, r) → r.length < ts.length
  | 0, acc, ts, v, r => by intro h; simp [decodeArr] at h
  | f + 1, acc, ts, v, r => by
      intro h
      simp only [decodeArr] at h
      split at h
      · match ts, h with
        | t :: ts1, h =>
            simp only [readToken] at h
            obtain ⟨rfl, rfl⟩ : JValue.arr acc = v ∧ ts1 = r := by
              simpa using h
            simp
      · match hd : decodeValue f ts with
        | .error e => rw [hd] at h; simp at h
        | .ok (w, ts1) =>
            rw [hd] at h
            simp only at h
            have h1 := decodeValue_consumes f ts w ts1 hd
            have h2 := decodeArr_consumes f (acc ++ [w]) ts1 v r h
            omega

theorem decodeMap_consumes : ∀ (f : Nat) (acc : List (String × JValue)) (ts : List Token)
    (v : JValue) (r : List Token),
    decodeMap f acc ts = .ok (v, r) → r.length < ts.length
  | 0, acc, ts, v, r => by intro h; simp [decodeMap] at h
  | f + 1, acc, ts, v, r => by
      intro h
      simp only [decodeMap] at h
      split at h
      · match ts, h with
        | t :: ts1, h =>
            simp only [readToken] at h
            obtain ⟨rfl, rfl⟩ : JValue.map acc = v ∧ ts1 = r := by
              simpa using h
            simp
      · match ts, h with
        | [], h => simp [readToken] at h
        | t :: ts1, h =>
            simp only [readToken] at h
            cases t with
            | str k =>
                simp only at h
                match hd : decodeValue f ts1 with
                | .error e => rw [hd] at h; simp at h
                | .ok (w, ts2) =>
                    rw [hd] at h
                    simp only at h
                    have h1 := decodeValue_consumes f ts1 w ts2 hd
                    have h2 := decodeMap_consumes f (mapInsert k w acc) ts2 v r h
                    simp only [List.length_cons]
                    omega
            | null => simp at h
            | bool b => simp at h
            | num n => simp at h
            | beginObject => simp at h
            | endObject => simp at h
            | beginArray => simp at h
            | endArray => simp at h

end

mutual

/-- The token stream of one JSON value as presented in a decoder input:
arrays and objects enclose their members in source order, no reordering. -/
def srcValueTokens : JValue → List Token
  | .null => [.null]
  | .bool b => [.bool b]
  | .num n => [.num n]
  | .str s => [.str s]
  | .arr xs => Token.beginArray :: srcArrTokens xs ++ [Token.endArray]
  | .obj es => Token.beginObject :: srcEntryTokens es ++ [Token.endObject]
  | .map ps => Token.beginObject :: srcPairTokens ps ++ [Token.endObject]
termination_by v => 2 * sizeOf v + 1
decreasing_by
  all_goals simp [List.cons.sizeOf_spec, Entry.mk.sizeOf_spec, Prod.mk.sizeOf_spec,
    JValue.obj.sizeOf_spec, JValue.arr.sizeOf_spec, JValue.map.sizeOf_spec]
  all_goals omega

/-- The token stream of an entry sequence in a decoder input: for each entry
in source order, the key's string token then the value's tokens. -/
def srcEntryTokens : List (Entry JValue) → List Token
  | [] => []
  | ⟨k, v⟩ :: rest => Token.str k :: srcValueTokens v ++ srcEntryTokens rest
termination_by l => 2 * sizeOf l
decreasing_by
  all_goals simp [List.cons.sizeOf_spec, Entry.mk.sizeOf_spec, Prod.mk.sizeOf_spec,
    JValue.obj.sizeOf_spec, JValue.arr.sizeOf_spec, JValue.map.sizeOf_spec]
  all_goals omega

/-- The token stream of array elements in a decoder input, in source order. -/
def srcArrTokens : List JValue → List Token
  | [] => []
  | v :: rest => srcValueTokens v ++ srcArrTokens rest
termination_by l => 2 * sizeOf l
decreasing_by
  all_goals simp [List.cons.sizeOf_spec, Entry.mk.sizeOf_spec, Prod.mk.sizeOf_spec,
    JValue.obj.sizeOf_spec, JValue.arr.sizeOf_spec, JValue.map.sizeOf_spec]
  all_goals omega

/-- The token stream of object members in a decoder input, in source order. -/
def srcPairTokens : List (String × JValue) → List Token
  | [] => []
  | (k, v) :: rest => Token.str k :: srcValueTokens v ++ srcPairTokens rest
termination_by l => 2 * sizeOf l
decreasing_by
  all_goals simp [List.cons.sizeOf_spec, Entry.mk.sizeOf_spec, Prod.mk.sizeOf_spec,
    JValue.obj.sizeOf_spec, JValue.arr.sizeOf_spec, JValue.map.sizeOf_spec]
  all_goals omega

end

/-- Pairwise distinctness of mapping keys, as a boolean. -/
def keysDistinct : List (String × JValue) → Bool
  | [] => true
  | (k, _) :: rest => rest.all (fun q => q.1 != k) && keysDistinct rest

mutual

/-- Values the host generic unmarshaller reads back exactly as presented:
scalars, arrays of such values, and mappings whose keys are pairwise
distinct (so last-wins overwriting never fires); ordered-object values do
not arise on the decode path. -/
def exactDecodable : JValue → Bool
  | .null => true
  | .bool _ => true
  | .num _ => true
  | .str _ => true
  | .arr xs => exactDecodableList xs
  | .obj _ => false
  | .map ps => keysDistinct ps && exactDecodablePairs ps
termination_by v => 2 * sizeOf v + 1
decreasing_by
  all_goals simp [List.cons.sizeOf_spec, Entry.mk.sizeOf_spec, Prod.mk.sizeOf_spec,
    JValue.obj.sizeOf_spec, JValue.arr.sizeOf_spec, JValue.map.sizeOf_spec]
  all_goals omega

/-- All elements exactly decodable. -/
def exactDecodableList : List JValue → Bool
  | [] => true
  | v :: rest => exactDecodable v && exactDecodableList rest
termination_by l => 2 * sizeOf l
decreasing_by
  all_goals simp [List.cons.sizeOf_spec, Entry.mk.sizeOf_spec, Prod.mk.sizeOf_spec,
    JValue.obj.sizeOf_spec, JValue.arr.sizeOf_spec, JValue.map.sizeOf_spec]
  all_goals omega

/-- All pair values exactly decodable. -/
def exactDecodablePairs : List (String × JValue) → Bool
  | [] => true
  | (_, v) :: rest => exactDecodable v && exactDecodablePairs rest
termination_by l => 2 * sizeOf l
decreasing_by
  all_goals simp [List.cons.sizeOf_spec, Entry.mk.sizeOf_spec, Prod.mk.sizeOf_spec,
    JValue.obj.sizeOf_spec, JValue.arr.sizeOf_spec, JValue.map.sizeOf_spec]
  all_goals omega

end

theorem srcValueTokens_head (v : JValue) :
    ∃ t ts', srcValueTokens v = t :: ts' ∧ t ≠ Token.endArray ∧ t ≠ Token.endObject := by
  cases v with
  | null => exact ⟨Token.null, [], by simp [srcValueTokens], by simp, by simp⟩
  | bool b => exact ⟨Token.bool b, [], by simp [srcValueTokens], by simp, by simp⟩
  | num n => exact ⟨Token.num n, [], by simp [srcValueTokens], by simp, by simp⟩
  | str s => exact ⟨Token.str s, [], by simp [srcValueTokens], by simp, by simp⟩
  | arr xs =>
      exact ⟨Token.beginArray, srcArrTokens xs ++ [Token.endArray],
        by simp [srcValueTokens], by simp, by simp⟩
  | obj es =>
      exact ⟨Token.beginObject, srcEntryTokens es ++ [Token.endObject],
        by simp [srcValueTokens], by simp, by simp⟩
  | map ps =>
      exact ⟨Token.beginObject, srcPairTokens ps ++ [Token.endObject],
        by simp [srcValueTokens], by simp, by simp⟩

theorem srcValueTokens_length_pos (v : JValue) : 1 ≤ (srcValueTokens v).length := by
  obtain ⟨t, ts', h, -, -⟩ := srcValueTokens_head v
  simp [h]

theorem kind_eq_lbrace_iff (t : Token) : t.kind = '{' ↔ t = Token.beginObject := by
  cases t with
  | bool b => cases b <;> simp [Token.kind]
  | _ => simp [Token.kind]

theorem kind_eq_rbracket_iff (t : Token) : t.kind = ']' ↔ t = Token.endArray := by
  cases t with
  | bool b => cases b <;> simp [Token.kind]
  | _ => simp [Token.kind]

theorem kind_eq_rbrace_iff (t : Token) : t.kind = '}' ↔ t = Token.endObject := by
  cases t with
  | bool b => cases b <;> simp [Token.kind]
  | _ => simp [Token.kind]

theorem kind_eq_quote_iff (t : Token) : t.kind = '"' ↔ ∃ s, t = Token.str s := by
  cases t with
  | bool b => cases b <;> simp [Token.kind]
  | _ => simp [Token.kind]

theorem mapInsert_fresh (k : String) (v : JValue) :
    ∀ (acc : List (String × JValue)), (∀ q ∈ acc, q.1 ≠ k) →
      mapInsert k v acc = acc ++ [(k, v)] := by
  intro acc
  induction acc with
  | nil => intro _; rfl
  | cons q rest ih =>
      intro h
      have hq : q.1 ≠ k := h q (List.mem_cons_self q rest)
      simp only [mapInsert, if_neg hq, List.cons_append]
      rw [ih fun x hx => h x (List.mem_cons_of_mem q hx)]

mutual

theorem decodeValue_complete : ∀ (v : JValue) (f : Nat) (rest : List Token),
    exactDecodable v = true → (srcValueTokens v).length < f →
    decodeValue f (srcValueTokens v ++ rest) = .ok (v, rest)
  | v, 0, rest => by
      intro _ hf
      have := srcValueTokens_length_pos v
      omega
  | .null, f + 1, rest => by
      intro _ _
      simp [srcValueTokens, decodeValue, readToken]
  | .bool b, f + 1, rest => by
      intro _ _
      simp [srcValueTokens, decodeValue, readToken]
  | .num n, f + 1, rest => by
      intro _ _
      simp [srcValueTokens, decodeValue, readToken]
  | .str s, f + 1, rest => by
      intro _ _
      simp [srcValueTokens, decodeValue, readToken]
  | .obj es, f + 1, rest => by
      intro hd _
      simp [exactDecodable] at hd
  | .arr xs, f + 1, rest => by
      intro hd hf
      simp only [exactDecodable] at hd
      simp only [srcValueTokens, List.length_cons, List.length_append,
        List.length_singleton] at hf
      have harr := decodeArr_complete xs [] f rest hd (by omega)
      simp only [srcValueTokens, List.cons_append, List.append_assoc,
        List.singleton_append]
      simp only [decodeValue, readToken]
      simpa using harr
  | .map ps, f + 1, rest => by
      intro hd hf
      simp only [exactDecodable, Bool.and_eq_true] at hd
      simp only [srcValueTokens, List.length_cons, List.length_append,
        List.length_singleton] at hf
      have hmap := decodeMap_complete ps [] f rest hd.1 hd.2 (by simp) (by omega)
      simp only [srcValueTokens, List.cons_append, List.append_assoc,
        List.singleton_append]
      simp only [decodeValue, readToken]
      simpa using hmap
termination_by v _ _ => 2 * sizeOf v + 1
decreasing_by
  all_goals simp [List.cons.sizeOf_spec, Entry.mk.sizeOf_spec, Prod.mk.sizeOf_spec,
    JValue.obj.sizeOf_spec, JValue.arr.sizeOf_spec, JValue.map.sizeOf_spec]
  all_goals omega

theorem decodeArr_complete : ∀ (xs : List JValue) (acc : List JValue) (f : Nat)
    (rest : List Token),
    exactDecodableList xs = true → (srcArrTokens xs).length + 1 < f →
    decodeArr f acc (srcArrTokens xs ++ Token.endArray :: rest) = .ok (.arr (acc ++ xs), rest)
  | xs, acc, 0, rest => by
      intro _ hf
      omega
  | [], acc, f + 1, rest => by
      intro _ _
      simp [srcArrTokens, decodeArr, peekKind, Token.kind, readToken]
  | x :: xs, acc, f + 1, rest => by
      intro hd hf
      simp only [exactDecodableList, Bool.and_eq_true] at hd
      simp only [srcArrTokens, List.length_append] at hf
      obtain ⟨t, ts', hhead, hne1, hne2⟩ := srcValueTokens_head x
      have hpos := srcValueTokens_length_pos x
      have hpeek : peekKind (srcValueTokens x ++
          (srcArrTokens xs ++ Token.endArray :: rest)) ≠ ']' := by
        rw [hhead]
        simp only [List.cons_append, peekKind]
        intro hk
        exact hne1 ((kind_eq_rbracket_iff t).mp hk)
      have hval := decodeValue_complete x f (srcArrTokens xs ++ Token.endArray :: rest)
        hd.1 (by omega)
      have hrec := decodeArr_complete xs (acc ++ [x]) f rest hd.2 (by omega)
      simp only [srcArrTokens, List.append_assoc]
      simp only [decodeArr, if_neg hpeek, hval]
      simpa using hrec
termination_by xs _ _ _ => 2 * sizeOf xs
decreasing_by
  all_goals simp [List.cons.sizeOf_spec, Entry.mk.sizeOf_spec, Prod.mk.sizeOf_spec,
    JValue.obj.sizeOf_spec, JValue.arr.sizeOf_spec, JValue.map.sizeOf_spec]
  all_goals omega

theorem decodeMap_complete : ∀ (ps : List (String × JValue)) (acc : List (String × JValue))
    (f : Nat) (rest : List Token),
    keysDistinct ps = true → exactDecodablePairs ps = true →
    (∀ q ∈ acc, ∀ p ∈ ps, q.1 ≠ p.1) →
    (srcPairTokens ps).length + 1 < f →
    decodeMap f acc (srcPairTokens ps ++ Token.endObject :: rest) = .ok (.map (acc ++ ps), rest)
  | ps, acc, 0, rest => by
      intro _ _ _ hf
      omega
  | [], acc, f + 1, rest => by
      intro _ _ _ _
      simp [srcPairTokens, decodeMap, peekKind, Token.kind, readToken]
  | (k, v) :: ps, acc, f + 1, rest => by
      intro hk hd hfresh hf
      simp only [keysDistinct, Bool.and_eq_true, List.all_eq_true] at hk
      simp only [exactDecodablePairs, Bool.and_eq_true] at hd
      simp only [srcPairTokens, List.length_cons, List.length_append] at hf
      have hpos := srcValueTokens_length_pos v
      have hval := decodeValue_complete v f (srcPairTokens ps ++ Token.endObject :: rest)
        hd.1 (by omega)
      have hins : mapInsert k v acc = acc ++ [(k, v)] :=
        mapInsert_fresh k v acc fun q hq =>
          hfresh q hq (k, v) (List.mem_cons_self _ _)
      have hfresh2 : ∀ q ∈ acc ++ [(k, v)], ∀ p ∈ ps, q.1 ≠ p.1 := by
        intro q hq p hp
        rcases List.mem_append.mp hq with hq1 | hq2
        · exact hfresh q hq1 p (List.mem_cons_of_mem _ hp)
        · have hqe : q = (k, v) := by simpa using hq2
          subst hqe
          have := hk.1 p hp
          simp only [bne_iff_ne, ne_eq] at this
          exact fun hcon => this (hcon ▸ rfl)
      have hrec := decodeMap_complete ps (acc ++ [(k, v)]) f rest hk.2 hd.2 hfresh2 (by omega)
      simp only [srcPairTokens, List.cons_append, List.append_assoc]
      have hpeek : peekKind (Token.str k :: (srcValueTokens v ++
          (srcPairTokens ps ++ Token.endObject :: rest))) ≠ '}' := by
        simp [peekKind, Token.kind]
      simp only [decodeMap, if_neg hpeek, readToken, hval, hins]
      simpa using hrec
termination_by ps _ _ _ => 2 * sizeOf ps
decreasing_by
  all_goals simp [List.cons.sizeOf_spec, Entry.mk.sizeOf_spec, Prod.mk.sizeOf_spec,
    JValue.obj.sizeOf_spec, JValue.arr.sizeOf_spec, JValue.map.sizeOf_spec]
  all_goals omega

end

/-- The key-value loop of `UnmarshalJSONFrom` (`object.go` lines 218-242),
together with the final read of the closing brace: while the peeked kind is
not `}`, read a token, require a string key (else `ErrExpectedStringKey`
with the observed kind), let the host unmarshaller consume one value, and
append the pair — with no key-uniqueness check; when the peeked kind is `}`,
read the closing token and stop.  `fuel` only bounds the recursion; the
wrapper supplies more than the input length. -/
def unmarshalLoop : Nat → List (Entry JValue) → List Token →
    Except DecodeError (List (Entry JValue) × List Token)
  | 0, _, _ => .error .outOfFuel
  | f + 1, acc, ts =>
    if peekKind ts = '}' then
      match readToken ts with
      | .error e => .error e
      | .ok (_, ts1) => .ok (acc, ts1)
    else
      match readToken ts with
      | .error e => .error e
      | .ok (t, ts1) =>
        match t with
        | .str key =>
          match decodeValueTop ts1 with
          | .error e => .error e
          | .ok (v, ts2) => unmarshalLoop f (acc ++ [⟨key, v⟩]) ts2
        | _ => .error (.expectedStringKey t.kind)

/-- `UnmarshalJSONFrom` (`object.go` lines 204-245) over the external token
stream: start from reset (empty) entries, require BeginObject — else
`ErrExpectedObjectStart` with the observed kind — then run the key-value
loop and consume the closing brace.  Returns the decoded entries together
with the unread remainder of the stream. -/
def unmarshalJSONFromT (ts : List Token) :
    Except DecodeError (List (Entry JValue) × List Token) :=
  match readToken ts with
  | .error e => .error e
  | .ok (t, ts1) =>
    if t.kind = '{' then unmarshalLoop (ts1.length + 1) [] ts1
    else .error (.expectedObjectStart t.kind)

theorem srcEntryTokens_length_ge :
    ∀ es : List (Entry JValue), es.length ≤ (srcEntryTokens es).length := by
  intro es
  induction es with
  | nil => simp [srcEntryTokens]
  | cons e rest ih =>
      obtain ⟨k, v⟩ := e
      have := srcValueTokens_length_pos v
      simp only [srcEntryTokens, List.length_cons, List.length_append]
      omega

theorem unmarshalLoop_complete :
    ∀ (es acc : List (Entry JValue)) (f : Nat) (rest : List Token),
    (∀ e ∈ es, exactDecodable e.Value = true) → es.length < f →
    unmarshalLoop f acc (srcEntryTokens es ++ Token.endObject :: rest) = .ok (acc ++ es, rest)
  | es, acc, 0, rest => by
      intro _ hf
      omega
  | [], acc, f + 1, rest => by
      intro _ _
      simp [srcEntryTokens, unmarshalLoop, peekKind, Token.kind, readToken]
  | ⟨k, v⟩ :: es, acc, f + 1, rest => by
      intro hvals hf
      have hv : exactDecodable v = true := hvals ⟨k, v⟩ (List.mem_cons_self _ _)
      have hrest : ∀ e ∈ es, exactDecodable e.Value = true :=
        fun e he => hvals e (List.mem_cons_of_mem _ he)
      simp only [List.length_cons] at hf
      have hval := decodeValue_complete v
        ((srcValueTokens v ++ (srcEntryTokens es ++ Token.endObject :: rest)).length + 1)
        (srcEntryTokens es ++ Token.endObject :: rest) hv
        (by simp only [List.length_append]; omega)
      have hrec := unmarshalLoop_complete es (acc ++ [⟨k, v⟩]) f rest hrest (by omega)
      have hpeek : peekKind (Token.str k :: (srcValueTokens v ++
          (srcEntryTokens es ++ Token.endObject :: rest))) ≠ '}' := by
        simp [peekKind, Token.kind]
      simp only [srcEntryTokens, List.cons_append, List.append_assoc]
      simp only [unmarshalLoop, if_neg hpeek, readToken, decodeValueTop, hval]
      simpa using hrec

/-- C7: no key-uniqueness check is performed during decoding — for any input
object token stream, duplicated keys included, a successful
`UnmarshalJSONFrom` yields one entry per key-value pair of the input, in
source order (provided the values are ones the host unmarshaller reads back
exactly, which restricts nothing about the keys). -/
theorem unmarshalJSONFromT_keeps_duplicates (es : List (Entry JValue)) (rest : List Token)
    (hvals : ∀ e ∈ es, exactDecodable e.Value = true) :
    unmarshalJSONFromT (Token.beginObject :: (srcEntryTokens es ++ Token.endObject :: rest))
      = .ok (es, rest) := by
  have hge := srcEntryTokens_length_ge es
  have h := unmarshalLoop_complete es []
      ((srcEntryTokens es ++ Token.endObject :: rest).length + 1) rest hvals
      (by simp only [List.length_append, List.length_cons]; omega)
  simp only [unmarshalJSONFromT, readToken, Token.kind, if_pos]
  simpa using h

/-- Witness for C7: a two-entry input with the same key decodes to two
entries with that key, in source order. -/
theorem unmarshalJSONFromT_keeps_duplicates_witness :
    unmarshalJSONFromT [Token.beginObject, Token.str "k", Token.num 1, Token.str "k",
        Token.num 2, Token.endObject]
      = .ok ([⟨"k", JValue.num 1⟩, ⟨"k", JValue.num 2⟩], []) := by
  have h := unmarshalJSONFromT_keeps_duplicates
      [⟨"k", JValue.num 1⟩, ⟨"k", JValue.num 2⟩] []
      (by
        intro e he
        rcases List.mem_cons.mp he with rfl | he2
        · simp [exactDecodable]
        · rcases List.mem_cons.mp he2 with rfl | he3
          · simp [exactDecodable]
          · cases he3)
  simpa [srcEntryTokens, srcValueTokens] using h

/-! C5: uniqueness and length agreement. -/

theorem findKeyIndexAux_nonneg_of_mem {key : String} :
    ∀ (l : List (Entry V)) (i : Int), 0 ≤ i → (∃ e ∈ l, e.Key = key) →
      0 ≤ findKeyIndexAux key l i := by
  intro l
  induction l with
  | nil =>
      intro i _ h
      simp at h
  | cons e rest ih =>
      intro i hi h
      by_cases he : e.Key = key
      · simp [findKeyIndexAux, he, hi]
      · simp only [findKeyIndexAux, if_neg he]
        refine ih (i + 1) (by omega) ?_
        obtain ⟨x, hx, hxk⟩ := h
        rcases List.mem_cons.mp hx with rfl | hx2
        · exact absurd hxk he
        · exact ⟨x, hx2, hxk⟩

theorem keys_set (o : Object V) (k : String) (v : V) :
    (o.set k v).keys = o.keys ∨ ((o.set k v).keys = o.keys ++ [k] ∧ k ∉ o.keys) := by
  by_cases h : 0 ≤ o.findKeyIndex k
  · left
    simp only [Object.set, if_pos h, Object.keys]
    exact keys_setValueAt v o.entries _
  · right
    refine ⟨by simp [Object.set, if_neg h, Object.keys], ?_⟩
    intro hk
    apply h
    apply findKeyIndexAux_nonneg_of_mem o.entries 0 le_rfl
    obtain ⟨e, he, hek⟩ := List.mem_map.mp hk
    exact ⟨e, he, hek⟩

theorem keys_delete_sublist (o : Object V) (k : String) :
    (o.delete k).keys.Sublist o.keys := by
  by_cases h : 0 ≤ o.findKeyIndex k
  · simp only [Object.delete, if_pos h, Object.keys, List.map_append, List.map_take,
      List.map_drop]
    rw [← List.eraseIdx_eq_take_drop_succ]
    exact List.eraseIdx_sublist _ _
  · simp only [Object.delete, if_neg h]
    exact List.Sublist.refl _

/-- The container states reachable from the empty container through the
order-preserving mutators `Set`, `Delete` and `Clone`. -/
inductive Reachable : Object V → Prop where
  | empty : Reachable ⟨[]⟩
  | set (o : Object V) (k : String) (v : V) : Reachable o → Reachable (o.set k v)
  | delete (o : Object V) (k : String) : Reachable o → Reachable (o.delete k)
  | clone (o : Object V) : Reachable o → Reachable o.clone

/-- C5 amended: in every state reachable from the empty container by `Set`,
`Delete` and `Clone` — the decode path excluded, since decoding performs no
uniqueness check — each key occurs in at most one entry, and the reported
length equals the number of entries, which equals the number of distinct
keys. -/
theorem reachable_unique_keys_length_agree (o : Object V) (h : Reachable o) :
    o.keys.Nodup ∧ o.length = o.entries.length ∧
    o.keys.dedup.length = o.entries.length := by
  have hnodup : o.keys.Nodup := by
    induction h with
    | empty => simp [Object.keys]
    | set o k v hr ih =>
        rcases keys_set o k v with he | ⟨he, hnk⟩
        · rw [he]; exact ih
        · rw [he]
          simp only [List.nodup_append, List.nodup_cons, List.not_mem_nil,
            not_false_iff, List.nodup_nil, and_true, List.disjoint_singleton]
          exact ⟨ih, by simpa using hnk⟩
    | delete o k hr ih => exact (keys_delete_sublist o k).nodup ih
    | clone o hr ih => exact ih
  refine ⟨hnodup, rfl, ?_⟩
  rw [List.Nodup.dedup hnodup]
  simp [Object.keys]

/-- Witness for the amended C5 at a concrete reachable state. -/
theorem reachable_unique_keys_length_agree_witness :
    ((Object.mk [] : Object Nat).set "a" 1).keys.Nodup ∧
    ((Object.mk [] : Object Nat).set "a" 1).length
      = ((Object.mk [] : Object Nat).set "a" 1).entries.length ∧
    ((Object.mk [] : Object Nat).set "a" 1).keys.dedup.length
      = ((Object.mk [] : Object Nat).set "a" 1).entries.length :=
  reachable_unique_keys_length_agree _ (Reachable.set _ "a" 1 Reachable.empty)

/-- Counterexample to C5 as stated: decoding (one of the claimed public
operations) an object token stream with a duplicated key succeeds and
produces a container state holding the key twice: its length is 2 while its
number of distinct keys is 1, and its key list is not duplicate-free. -/
theorem duplicate_decode_breaks_uniqueness :
    unmarshalJSONFromT [Token.beginObject, Token.str "a", Token.num 1, Token.str "a",
        Token.num 2, Token.endObject]
      = .ok ([⟨"a", JValue.num 1⟩, ⟨"a", JValue.num 2⟩], []) ∧
    (Object.mk [⟨"a", JValue.num 1⟩, ⟨"a", JValue.num 2⟩]).length = 2 ∧
    (Object.mk [⟨"a", JValue.num 1⟩, ⟨"a", JValue.num 2⟩]).keys.dedup.length = 1 ∧
    ¬ (Object.mk [⟨"a", JValue.num 1⟩, ⟨"a", JValue.num 2⟩]).keys.Nodup := by
  refine ⟨?_, rfl, by decide, by decide⟩
  have h := unmarshalLoop_complete [⟨"a", JValue.num 1⟩, ⟨"a", JValue.num 2⟩] [] 6 []
      (by
        intro e he
        rcases List.mem_cons.mp he with rfl | he2
        · simp [exactDecodable]
        · rcases List.mem_cons.mp he2 with rfl | he3
          · simp [exactDecodable]
          · cases he3)
      (by decide)
  simp only [srcEntryTokens, srcValueTokens, List.cons_append, List.nil_append,
    List.singleton_append] at h
  simp only [unmarshalJSONFromT, readToken, Token.kind, if_pos]
  simpa using h

/-! C6: the two structural decode errors arise exactly where the spec says. -/

mutual

theorem decodeValue_error_shape : ∀ (f : Nat) (ts : List Token) (e : DecodeError),
    decodeValue f ts = .error e → e = .eof ∨ e = .valueError ∨ e = .outOfFuel
  | 0, ts, e => by
      intro h
      simp only [decodeValue, Except.error.injEq] at h
      exact Or.inr (Or.inr h.symm)
  | f + 1, ts, e => by
      intro h
      match ts with
      | [] =>
          simp only [decodeValue, readToken, Except.error.injEq] at h
          exact Or.inl h.symm
      | t :: ts1 =>
          simp only [decodeValue, readToken] at h
          cases t with
          | null => simp at h
          | bool b => simp at h
          | num n => simp at h
          | str s => simp at h
          | beginArray => exact decodeArr_error_shape f [] ts1 e h
          | beginObject => exact decodeMap_error_shape f [] ts1 e h
          | endArray =>
              simp only [Except.error.injEq] at h
              exact Or.inr (Or.inl h.symm)
          | endObject =>
              simp only [Except.error.injEq] at h
              exact Or.inr (Or.inl h.symm)

theorem decodeArr_error_shape : ∀ (f : Nat) (acc : List JValue) (ts : List Token)
    (e : DecodeError),
    decodeArr f acc ts = .error e → e = .eof ∨ e = .valueError ∨ e = .outOfFuel
  | 0, acc, ts, e => by
      intro h
      simp only [decodeArr, Except.error.injEq] at h
      exact Or.inr (Or.inr h.symm)
  | f + 1, acc, ts, e => by
      intro h
      simp only [decodeArr] at h
      split at h
      · match ts, h with
        | [], h =>
            simp only [readToken, Except.error.injEq] at h
            exact Or.inl h.symm
        | t :: ts1, h => simp [readToken] at h
      · match hd : decodeValue f ts with
        | .error e' =>
            rw [hd] at h
            simp only [Except.error.injEq] at h
            exact h ▸ decodeValue_error_shape f ts e' hd
        | .ok (w, ts1) =>
            rw [hd] at h
            exact decodeArr_error_shape f (acc ++ [w]) ts1 e h

theorem decodeMap_error_shape : ∀ (f : Nat) (acc : List (String × JValue)) (ts : List Token)
    (e : DecodeError),
    decodeMap f acc ts = .error e → e = .eof ∨ e = .valueError ∨ e = .outOfFuel
  | 0, acc, ts, e => by
      intro h
      simp only [decodeMap, Except.error.injEq] at h
      exact Or.inr (Or.inr h.symm)
  | f + 1, acc, ts, e => by
      intro h
      simp only [decodeMap] at h
      split at h
      · match ts, h with
        | [], h =>
            simp only [readToken, Except.error.injEq] at h
            exact Or.inl h.symm
        | t :: ts1, h => simp [readToken] at h
      · match ts, h with
        | [], h =>
            simp only [readToken, Except.error.injEq] at h
            exact Or.inl h.symm
        | t :: ts1, h =>
            simp only [readToken] at h
            cases t with
            | str k =>
                simp only at h
                match hd : decodeValue f ts1 with
                | .error e' =>
                    rw [hd] at h
                    simp only [Except.error.injEq] at h
                    exact h ▸ decodeValue_error_shape f ts1 e' hd
                | .ok (w, ts2) =>
                    rw [hd] at h
                    exact decodeMap_error_shape f (mapInsert k w acc) ts2 e h
            | null =>
                simp only [Except.error.injEq] at h
                exact Or.inr (Or.inl h.symm)
            | bool b =>
                simp only [Except.error.injEq] at h
                exact Or.inr (Or.inl h.symm)
            | num n =>
                simp only [Except.error.injEq] at h
                exact Or.inr (Or.inl h.symm)
            | beginArray =>
                simp only [Except.error.injEq] at h
                exact Or.inr (Or.inl h.symm)
            | beginObject =>
                simp only [Except.error.injEq] at h
                exact Or.inr (Or.inl h.symm)
            | endArray =>
                simp only [Except.error.injEq] at h
                exact Or.inr (Or.inl h.symm)
            | endObject =>
                simp only [Except.error.injEq] at h
                exact Or.inr (Or.inl h.symm)

end

/-- The chain of completed key-value iterations of the decode loop: `s` can
step to the state left after reading one string key and letting the host
unmarshaller consume one value. -/
inductive LoopReach : List Token → List Token → Prop where
  | refl (ts : List Token) : LoopReach ts ts
  | step (key : String) (v : JValue) (ts1 ts2 ts3 : List Token) :
      decodeValueTop ts1 = .ok (v, ts2) → LoopReach ts2 ts3 →
      LoopReach (Token.str key :: ts1) ts3

/-- A key-required position of `UnmarshalJSONFrom` on input `ts`: after the
opening BeginObject, some number of completed key-value iterations leads to
the suffix `s`, at which the loop continues because the peeked kind is not
EndObject — so the next token read is required to be a string key. -/
def KeyPos (ts s : List Token) : Prop :=
  ∃ ts0, ts = Token.beginObject :: ts0 ∧ LoopReach ts0 s ∧ peekKind s ≠ '}'

theorem unmarshalLoop_no_objstart :
    ∀ (f : Nat) (acc : List (Entry JValue)) (ts : List Token) (k : Char),
    unmarshalLoop f acc ts ≠ .error (.expectedObjectStart k)
  | 0, acc, ts, k => by simp [unmarshalLoop]
  | f + 1, acc, ts, k => by
      intro h
      simp only [unmarshalLoop] at h
      split at h
      · match ts, h with
        | [], h => simp [readToken] at h
        | t :: ts1, h => simp [readToken] at h
      · match ts, h with
        | [], h => simp [readToken] at h
        | t :: ts1, h =>
            simp only [readToken] at h
            cases t with
            | str key =>
                simp only at h
                match hd : decodeValueTop ts1 with
                | .error e' =>
                    rw [hd] at h
                    simp only [Except.error.injEq] at h
                    rcases decodeValue_error_shape _ _ _ hd with h1 | h1 | h1 <;>
                      simp [h1] at h
                | .ok (v, ts2) =>
                    rw [hd] at h
                    exact unmarshalLoop_no_objstart f (acc ++ [⟨key, v⟩]) ts2 k h
            | null => simp at h
            | bool b => simp at h
            | num n => simp at h
            | beginArray => simp at h
            | beginObject => simp at h
            | endArray => simp at h
            | endObject => simp at h

theorem loopReach_expectedStringKey {s s' : List Token} (h : LoopReach s s') :
    ∀ (t : Token) (r : List Token), s' = t :: r → t.kind ≠ '"' → t.kind ≠ '}' →
    ∀ (f : Nat) (acc : List (Entry JValue)), s.length < f →
      unmarshalLoop f acc s = .error (.expectedStringKey t.kind) := by
  induction h with
  | refl ts =>
      intro t r hs hq hb f acc hf
      subst hs
      obtain ⟨f', rfl⟩ : ∃ f', f = f' + 1 := by
        cases f with
        | zero => simp at hf
        | succ n => exact ⟨n, rfl⟩
      have hpeek : peekKind (t :: r) ≠ '}' := by simpa [peekKind] using hb
      simp only [unmarshalLoop, if_neg hpeek, readToken]
      cases t with
      | str s => exact absurd (by simp [Token.kind]) hq
      | null => rfl
      | bool b => cases b <;> rfl
      | num n => rfl
      | beginArray => rfl
      | beginObject => rfl
      | endArray => rfl
      | endObject => exact absurd (by simp [Token.kind]) hb
  | step key v ts1 ts2 ts3 hdec hreach ih =>
      intro t r hs hq hb f acc hf
      obtain ⟨f', rfl⟩ : ∃ f', f = f' + 1 := by
        cases f with
        | zero => simp at hf
        | succ n => exact ⟨n, rfl⟩
      have hpeek : peekKind (Token.str key :: ts1) ≠ '}' := by
        simp [peekKind, Token.kind]
      have hcons := decodeValue_consumes _ _ _ _ hdec
      simp only [List.length_cons] at hf
      simp only [unmarshalLoop, if_neg hpeek, readToken, hdec]
      exact ih t r hs hq hb f' (acc ++ [⟨key, v⟩]) (by omega)

theorem unmarshalLoop_stringKey_sound :
    ∀ (f : Nat) (acc : List (Entry JValue)) (s : List Token) (k : Char),
    unmarshalLoop f acc s = .error (.expectedStringKey k) →
    ∃ t r, LoopReach s (t :: r) ∧ peekKind (t :: r) ≠ '}' ∧ t.kind = k ∧ k ≠ '"' ∧ k ≠ '}'
  | 0, acc, s, k => by simp [unmarshalLoop]
  | f + 1, acc, s, k => by
      intro h
      simp only [unmarshalLoop] at h
      split at h
      · cases s with
        | nil => simp [readToken] at h
        | cons t ts1 => simp [readToken] at h
      · rename_i hpeek
        cases s with
        | nil => simp [readToken] at h
        | cons t ts1 =>
            simp only [readToken] at h
            cases t with
            | str key =>
                simp only at h
                match hd : decodeValueTop ts1 with
                | .error e' =>
                    rw [hd] at h
                    simp only [Except.error.injEq] at h
                    rcases decodeValue_error_shape _ _ _ hd with h1 | h1 | h1 <;>
                      simp [h1] at h
                | .ok (v, ts2) =>
                    rw [hd] at h
                    obtain ⟨t', r', hreach, hp, hk, hq, hb⟩ :=
                      unmarshalLoop_stringKey_sound f (acc ++ [⟨key, v⟩]) ts2 k h
                    exact ⟨t', r', LoopReach.step key v ts1 ts2 _ hd hreach, hp, hk, hq, hb⟩
            | null =>
                simp only [Except.error.injEq, DecodeError.expectedStringKey.injEq,
                  Token.kind] at h
                exact ⟨Token.null, ts1, LoopReach.refl _, hpeek, h, by rw [← h]; decide,
                  by rw [← h]; decide⟩
            | bool b =>
                cases b <;>
                  simp only [Except.error.injEq, DecodeError.expectedStringKey.injEq,
                    Token.kind] at h
                · exact ⟨Token.bool false, ts1, LoopReach.refl _, hpeek, h,
                    by rw [← h]; decide, by rw [← h]; decide⟩
                · exact ⟨Token.bool true, ts1, LoopReach.refl _, hpeek, h,
                    by rw [← h]; decide, by rw [← h]; decide⟩
            | num n =>
                simp only [Except.error.injEq, DecodeError.expectedStringKey.injEq,
                  Token.kind] at h
                exact ⟨Token.num n, ts1, LoopReach.refl _, hpeek, h, by rw [← h]; decide,
                  by rw [← h]; decide⟩
            | beginArray =>
                simp only [Except.error.injEq, DecodeError.expectedStringKey.injEq,
                  Token.kind] at h
                exact ⟨Token.beginArray, ts1, LoopReach.refl _, hpeek, h,
                  by rw [← h]; decide, by rw [← h]; decide⟩
            | beginObject =>
                simp only [Except.error.injEq, DecodeError.expectedStringKey.injEq,
                  Token.kind] at h
                exact ⟨Token.beginObject, ts1, LoopReach.refl _, hpeek, h,
                  by rw [← h]; decide, by rw [← h]; decide⟩
            | endArray =>
                simp only [Except.error.injEq, DecodeError.expectedStringKey.injEq,
                  Token.kind] at h
                exact ⟨Token.endArray, ts1, LoopReach.refl _, hpeek, h,
                  by rw [← h]; decide, by rw [← h]; decide⟩
            | endObject =>
                exact absurd (by simp [peekKind, Token.kind]) hpeek

/-- C6: the structural decode errors arise exactly as specified.
`ErrExpectedObjectStart`, reporting the observed kind, is returned exactly
when the first token read is not BeginObject; `ErrExpectedStringKey`,
reporting the observed kind, is returned exactly when at a key-required
position (`KeyPos`) the token read is neither a string key nor the
EndObject that ends the loop. -/
theorem unmarshal_structural_errors (ts : List Token) :
    (∀ t rest, ts = t :: rest → t.kind ≠ '{' →
        unmarshalJSONFromT ts = .error (.expectedObjectStart t.kind)) ∧
    (∀ k, unmarshalJSONFromT ts = .error (.expectedObjectStart k) →
        ∃ t rest, ts = t :: rest ∧ t.kind = k ∧ k ≠ '{') ∧
    (∀ t rest, KeyPos ts (t :: rest) → t.kind ≠ '"' →
        unmarshalJSONFromT ts = .error (.expectedStringKey t.kind)) ∧
    (∀ k, unmarshalJSONFromT ts = .error (.expectedStringKey k) →
        ∃ t rest, KeyPos ts (t :: rest) ∧ t.kind = k ∧ k ≠ '"' ∧ k ≠ '}') := by
  refine ⟨?_, ?_, ?_, ?_⟩
  · intro t rest hs hk
    subst hs
    simp [unmarshalJSONFromT, readToken, if_neg hk]
  · intro k h
    match ts with
    | [] => simp [unmarshalJSONFromT, readToken] at h
    | t :: rest =>
        simp only [unmarshalJSONFromT, readToken] at h
        by_cases hk : t.kind = '{'
        · rw [if_pos hk] at h
          exact absurd h (unmarshalLoop_no_objstart _ _ _ _)
        · rw [if_neg hk] at h
          simp only [Except.error.injEq, DecodeError.expectedObjectStart.injEq] at h
          exact ⟨t, rest, rfl, h, h ▸ hk⟩
  · intro t rest hpos hq
    obtain ⟨ts0, rfl, hreach, hpeek⟩ := hpos
    have hb : t.kind ≠ '}' := by simpa [peekKind] using hpeek
    have hloop := loopReach_expectedStringKey hreach t rest rfl hq hb
        (ts0.length + 1) [] (by omega)
    simp [unmarshalJSONFromT, readToken, Token.kind, hloop]
  · intro k h
    match ts with
    | [] => simp [unmarshalJSONFromT, readToken] at h
    | t :: ts0 =>
        simp only [unmarshalJSONFromT, readToken] at h
        by_cases hk : t.kind = '{'
        · rw [if_pos hk] at h
          obtain ⟨t', r', hreach, hp, hkind, hq, hb⟩ :=
            unmarshalLoop_stringKey_sound _ _ _ _ h
          have ht : t = Token.beginObject := (kind_eq_lbrace_iff t).mp hk
          exact ⟨t', r', ⟨ts0, by rw [ht], hreach, hp⟩, hkind, hq, hb⟩
        · rw [if_neg hk] at h
          simp at h

/-- Witness for C6 at concrete inputs: an array-start input reports
ExpectedObjectStart with the observed kind, and a number in key position
reports ExpectedStringKey with the observed kind. -/
theorem unmarshal_structural_errors_witness :
    unmarshalJSONFromT [Token.beginArray] = .error (.expectedObjectStart '[') ∧
    unmarshalJSONFromT [Token.beginObject, Token.num 7]
      = .error (.expectedStringKey '0') := by
  constructor
  · exact (unmarshal_structural_errors [Token.beginArray]).1 Token.beginArray [] rfl
      (by decide)
  · exact (unmarshal_structural_errors [Token.beginObject, Token.num 7]).2.2.1
      (Token.num 7) [] ⟨[Token.num 7], rfl, LoopReach.refl _, by decide⟩ (by decide)

/-! C10: construction and the unguarded capacity argument. -/

/-- The Go runtime's `make([]Entry[V], 0, capacity)`: an empty slice with the
given capacity reservation; a negative capacity makes the runtime panic
(`makeslice: cap out of range`), modelled as `none`. -/
def goMakeEntries (V : Type) (capacity : Int) : Option (List (Entry V)) :=
  if capacity < 0 then none else some []

/-- `NewObject` (`object.go` lines 39-47): take the head of the variadic
capacity list (0 when absent) and pass it, unguarded, to `make`. -/
def newObject (V : Type) (capacity : List Int) : Option (Object V) :=
  let c := match capacity with
    | [] => 0
    | c0 :: _ => c0
  match goMakeEntries V c with
  | none => none
  | some es => some ⟨es⟩

/-- C10: with no argument, or with a nonnegative capacity, `NewObject`
returns a container of length 0 (the capacity hint never affects observable
state); with a negative capacity it returns no container — the backing
`make` panics, and that branch is not guarded by any check. -/
theorem newObject_capacity (n : Int) :
    (newObject V [] = some ⟨[]⟩) ∧
    (0 ≤ n → ∃ o : Object V, newObject V [n] = some o ∧ o.length = 0) ∧
    (n < 0 → newObject V [n] = none) := by
  refine ⟨rfl, ?_, ?_⟩
  · intro h
    refine ⟨⟨[]⟩, ?_, rfl⟩
    simp [newObject, goMakeEntries, not_lt.mpr h]
  · intro h
    simp [newObject, goMakeEntries, h]

/-- Witness for C10: no argument, capacity 3, capacity -1. -/
theorem newObject_capacity_witness :
    (newObject Nat [] = some ⟨[]⟩) ∧
    (∃ o : Object Nat, newObject Nat [3] = some o ∧ o.length = 0) ∧
    newObject Nat [-1] = none :=
  ⟨(newObject_capacity 3).1, (newObject_capacity 3).2.1 (by decide),
    (newObject_capacity (-1)).2.2 (by decide)⟩

/-! C8 and C9: allocation freshness, made explicit in a small slice heap. -/

/-- A memory of allocated slices, indexed by allocation order: entry-array
cells (the backing storage of containers, and the copies `Entries` returns),
string-slice cells (`Keys` results) and value-slice cells (`Values`
results).  A container is a reference into `objCells`; this layer makes the
allocation behaviour of `Clone`, `Keys`, `Values` and `Entries` explicit, so
freshness and non-interference are meaningful statements. -/
structure Mem (V : Type) where
  objCells : List (List (Entry V))
  strCells : List (List String)
  valCells : List (List V)

/-- Read an entry-array cell. -/
def Mem.readObj (m : Mem V) (r : Nat) : List (Entry V) := m.objCells.getD r []

/-- Overwrite an entry-array cell. -/
def Mem.writeObj (m : Mem V) (r : Nat) (l : List (Entry V)) : Mem V :=
  { m with objCells := m.objCells.set r l }

/-- Allocate a fresh entry-array cell; returns the new memory and the cell. -/
def Mem.allocObj (m : Mem V) (l : List (Entry V)) : Mem V × Nat :=
  ({ m with objCells := m.objCells ++ [l] }, m.objCells.length)

/-- Read a string-slice cell. -/
def Mem.readStr (m : Mem V) (r : Nat) : List String := m.strCells.getD r []

/-- Overwrite a string-slice cell. -/
def Mem.writeStr (m : Mem V) (r : Nat) (l : List String) : Mem V :=
  { m with strCells := m.strCells.set r l }

/-- Allocate a fresh string-slice cell. -/
def Mem.allocStr (m : Mem V) (l : List String) : Mem V × Nat :=
  ({ m with strCells := m.strCells ++ [l] }, m.strCells.length)

/-- Read a value-slice cell. -/
def Mem.readVal (m : Mem V) (r : Nat) : List V := m.valCells.getD r []

/-- Overwrite a value-slice cell. -/
def Mem.writeVal (m : Mem V) (r : Nat) (l : List V) : Mem V :=
  { m with valCells := m.valCells.set r l }

/-- Allocate a fresh value-slice cell. -/
def Mem.allocVal (m : Mem V) (l : List V) : Mem V × Nat :=
  ({ m with valCells := m.valCells ++ [l] }, m.valCells.length)

/-- `Set` on the container referring to cell `r`: the method mutates the
container's own backing storage in place. -/
def setAt (m : Mem V) (r : Nat) (k : String) (v : V) : Mem V :=
  m.writeObj r ((Object.mk (m.readObj r)).set k v).entries

/-- `Delete` on the container referring to cell `r`. -/
def deleteAt (m : Mem V) (r : Nat) (k : String) : Mem V :=
  m.writeObj r ((Object.mk (m.readObj r)).delete k).entries

/-- `Clone` (`object.go` lines 156-160): `make` a fresh entry array, `copy`
the entries into it, and return a container referring to the new cell. -/
def cloneAt (m : Mem V) (r : Nat) : Mem V × Nat :=
  m.allocObj (m.readObj r)

/-- `Keys` (`object.go` lines 124-130): `make` a fresh string slice and fill
it with the keys in stored order. -/
def keysAt (m : Mem V) (r : Nat) : Mem V × Nat :=
  m.allocStr ((Object.mk (m.readObj r)).keys)

/-- `Values` (`object.go` lines 133-139): `make` a fresh value slice and
fill it with the values in stored order. -/
def valuesAt (m : Mem V) (r : Nat) : Mem V × Nat :=
  m.allocVal ((Object.mk (m.readObj r)).values)

/-- `Entries` (`object.go` lines 142-146): `make` a fresh entry slice and
`copy` the entries into it. -/
def entriesAt (m : Mem V) (r : Nat) : Mem V × Nat :=
  m.allocObj (m.readObj r)

/-- One `Set` or `Delete` call. -/
inductive Mutation (V : Type) where
  | set (k : String) (v : V)
  | del (k : String)

/-- Apply one mutation to the container at cell `r`. -/
def applyMutation (m : Mem V) (r : Nat) : Mutation V → Mem V
  | .set k v => setAt m r k v
  | .del k => deleteAt m r k

/-- Apply a sequence of mutations to the container at cell `r`. -/
def applyMutations (m : Mem V) (r : Nat) (ms : List (Mutation V)) : Mem V :=
  ms.foldl (fun acc mu => applyMutation acc r mu) m

theorem getD_append_length {α : Type} (xs : List α) (x : α) (d : α) :
    (xs ++ [x]).getD xs.length d = x := by
  induction xs with
  | nil => rfl
  | cons y ys ih => simpa [List.getD] using ih

theorem getD_append_lt {α : Type} :
    ∀ (xs : List α) (x : α) (r : Nat) (d : α), r < xs.length →
      (xs ++ [x]).getD r d = xs.getD r d := by
  intro xs
  induction xs with
  | nil => intro x r d h; simp at h
  | cons y ys ih =>
      intro x r d h
      cases r with
      | zero => rfl
      | succ j =>
          simp only [List.length_cons] at h
          simpa [List.getD] using ih x j d (by omega)

theorem getD_set_ne {α : Type} :
    ∀ (xs : List α) (i r : Nat) (a : α) (d : α), r ≠ i →
      (xs.set i a).getD r d = xs.getD r d := by
  intro xs
  induction xs with
  | nil => intro i r a d _; rfl
  | cons y ys ih =>
      intro i r a d h
      cases i with
      | zero =>
          cases r with
          | zero => exact absurd rfl h
          | succ j => rfl
      | succ i0 =>
          cases r with
          | zero => rfl
          | succ j => simpa [List.getD] using ih i0 j a d (by omega)

theorem applyMutation_readObj_ne (m : Mem V) (r' r : Nat) (mu : Mutation V)
    (h : r ≠ r') : (applyMutation m r' mu).readObj r = m.readObj r := by
  cases mu with
  | set k v =>
      simp only [applyMutation, setAt, Mem.writeObj, Mem.readObj]
      exact getD_set_ne _ _ _ _ _ h
  | del k =>
      simp only [applyMutation, deleteAt, Mem.writeObj, Mem.readObj]
      exact getD_set_ne _ _ _ _ _ h

theorem applyMutations_readObj_ne :
    ∀ (ms : List (Mutation V)) (m : Mem V) (r' r : Nat), r ≠ r' →
      (applyMutations m r' ms).readObj r = m.readObj r := by
  intro ms
  induction ms with
  | nil => intro m r' r _; rfl
  | cons mu rest ih =>
      intro m r' r h
      simp only [applyMutations, List.foldl_cons]
      rw [show (List.foldl (fun acc mu => applyMutation acc r' mu) (applyMutation m r' mu)
            rest) = applyMutations (applyMutation m r' mu) r' rest from rfl]
      rw [ih (applyMutation m r' mu) r' r h, applyMutation_readObj_ne m r' r mu h]

/-- C8: `Clone` allocates a fresh backing cell: the clone refers to a cell
distinct from the original's, reads back the same entry sequence — so its
`MarshalJSONTo` output equals the original's — and after any sequence of
Set/Delete mutations applied to the clone, the original container's entries
(hence its Marshal output) are unchanged: the two share no mutable entry
storage. -/
theorem clone_independent (m : Mem JValue) (r : Nat) (hr : r < m.objCells.length) :
    (cloneAt m r).2 ≠ r ∧
    (cloneAt m r).1.readObj (cloneAt m r).2 = m.readObj r ∧
    (∀ enc : Encoder,
        Object.marshalJSONTo ⟨(cloneAt m r).1.readObj (cloneAt m r).2⟩ enc
          = Object.marshalJSONTo ⟨m.readObj r⟩ enc) ∧
    (∀ ms : List (Mutation JValue),
        (applyMutations (cloneAt m r).1 (cloneAt m r).2 ms).readObj r = m.readObj r) := by
  have hne : (cloneAt m r).2 ≠ r := by
    simp only [cloneAt, Mem.allocObj]
    omega
  have hread : (cloneAt m r).1.readObj (cloneAt m r).2 = m.readObj r := by
    simp only [cloneAt, Mem.allocObj, Mem.readObj]
    exact getD_append_length _ _ _
  refine ⟨hne, hread, fun enc => by rw [hread], ?_⟩
  intro ms
  rw [applyMutations_readObj_ne ms (cloneAt m r).1 (cloneAt m r).2 r (fun h => hne h.symm)]
  simp only [cloneAt, Mem.allocObj, Mem.readObj]
  exact getD_append_lt _ _ _ _ hr

/-- Witness for C8 at a concrete one-cell memory and mutation sequence. -/
theorem clone_independent_witness :
    (cloneAt (Mem.mk [[⟨"a", JValue.null⟩]] [] []) 0).2 ≠ 0 ∧
    (applyMutations (cloneAt (Mem.mk [[⟨"a", JValue.null⟩]] [] []) 0).1
        (cloneAt (Mem.mk [[⟨"a", JValue.null⟩]] [] []) 0).2
        [Mutation.set "a" (JValue.num 5), Mutation.del "a"]).readObj 0
      = (Mem.mk [[⟨"a", JValue.null⟩]] [] []).readObj 0 :=
  ⟨(clone_independent (Mem.mk [[⟨"a", JValue.null⟩]] [] []) 0 (by decide)).1,
    (clone_independent (Mem.mk [[⟨"a", JValue.null⟩]] [] []) 0 (by decide)).2.2.2
      [Mutation.set "a" (JValue.num 5), Mutation.del "a"]⟩

/-- C9: `Keys`, `Values` and `Entries` each allocate a fresh slice whose
content is exactly the corresponding projection of the entries in stored
order — so its length is `Length()` — and overwriting the returned slice
afterwards leaves the container's entries unchanged. -/
theorem accessors_fresh_ordered (m : Mem V) (r : Nat) (hr : r < m.objCells.length) :
    ((keysAt m r).1.readStr (keysAt m r).2 = (m.readObj r).map (·.Key) ∧
      ((keysAt m r).1.readStr (keysAt m r).2).length = (Object.mk (m.readObj r)).length ∧
      ∀ l', ((keysAt m r).1.writeStr (keysAt m r).2 l').readObj r = m.readObj r) ∧
    ((valuesAt m r).1.readVal (valuesAt m r).2 = (m.readObj r).map (·.Value) ∧
      ((valuesAt m r).1.readVal (valuesAt m r).2).length = (Object.mk (m.readObj r)).length ∧
      ∀ l', ((valuesAt m r).1.writeVal (valuesAt m r).2 l').readObj r = m.readObj r) ∧
    ((entriesAt m r).1.readObj (entriesAt m r).2 = m.readObj r ∧
      ((entriesAt m r).1.readObj (entriesAt m r).2).length = (Object.mk (m.readObj r)).length ∧
      (entriesAt m r).2 ≠ r ∧
      ∀ l', ((entriesAt m r).1.writeObj (entriesAt m r).2 l').readObj r = m.readObj r) := by
  refine ⟨⟨?_, ?_, ?_⟩, ⟨?_, ?_, ?_⟩, ⟨?_, ?_, ?_, ?_⟩⟩
  · simp only [keysAt, Mem.allocStr, Mem.readStr, Object.keys]
    exact getD_append_length _ _ _
  · simp only [keysAt, Mem.allocStr, Mem.readStr, Object.keys, Object.length]
    rw [getD_append_length]
    simp
  · intro l'
    simp [keysAt, Mem.allocStr, Mem.writeStr, Mem.readObj]
  · simp only [valuesAt, Mem.allocVal, Mem.readVal, Object.values]
    exact getD_append_length _ _ _
  · simp only [valuesAt, Mem.allocVal, Mem.readVal, Object.values, Object.length]
    rw [getD_append_length]
    simp
  · intro l'
    simp [valuesAt, Mem.allocVal, Mem.writeVal, Mem.readObj]
  · simp only [entriesAt, Mem.allocObj, Mem.readObj]
    exact getD_append_length _ _ _
  · simp only [entriesAt, Mem.allocObj, Mem.readObj, Object.length]
    rw [getD_append_length]
  · simp only [entriesAt, Mem.allocObj]
    omega
  · intro l'
    simp only [entriesAt, Mem.allocObj, Mem.writeObj, Mem.readObj]
    rw [getD_set_ne _ _ _ _ _ (by omega)]
    exact getD_append_lt _ _ _ _ hr

/-- Witness for C9 at a concrete one-cell memory: the keys projection and
the non-interference of overwriting the returned slices. -/
theorem accessors_fresh_ordered_witness :
    (keysAt (Mem.mk [[⟨"a", (1 : Nat)⟩, ⟨"b", 2⟩]] [] []) 0).1.readStr
        (keysAt (Mem.mk [[⟨"a", (1 : Nat)⟩, ⟨"b", 2⟩]] [] []) 0).2
      = ["a", "b"] ∧
    ∀ l', ((entriesAt (Mem.mk [[⟨"a", (1 : Nat)⟩, ⟨"b", 2⟩]] [] []) 0).1.writeObj
        (entriesAt (Mem.mk [[⟨"a", (1 : Nat)⟩, ⟨"b", 2⟩]] [] []) 0).2 l').readObj 0
      = (Mem.mk [[⟨"a", (1 : Nat)⟩, ⟨"b", 2⟩]] [] []).readObj 0 :=
  ⟨((accessors_fresh_ordered (Mem.mk [[⟨"a", (1 : Nat)⟩, ⟨"b", 2⟩]] [] []) 0
      (by decide)).1.1).trans (by decide),
    (accessors_fresh_ordered (Mem.mk [[⟨"a", (1 : Nat)⟩, ⟨"b", 2⟩]] [] []) 0
      (by decide)).2.2.2.2.2⟩

/-! C2: the byte level.  `MarshalJSON` composes `MarshalJSONTo` with the
external encoder's compact byte rendering; `UnmarshalJSON` composes the
external decoder's byte-level tokenisation with `UnmarshalJSONFrom`.  The
external byte layer (`jsontext`) is modelled here: a compact renderer with
the standard separators and a tokeniser that skips insignificant whitespace
and the separators between tokens. -/

/-- The backslash character (0x5C). -/
def backslashChar : Char := Char.ofNat 92

/-- A character that a string can hold without escaping on the wire: not the
quote, not the backslash, not a control character.  Within this sub-universe
the modelled byte layer coincides with the external one. -/
def plainChar (c : Char) : Bool :=
  !(c == '"') && !(c == backslashChar) && decide (32 ≤ c.toNat)

/-- A string of plain characters. -/
def plainString (s : String) : Bool := s.data.all plainChar

/-- A decimal digit byte. -/
def isDigitChar (c : Char) : Bool := 48 ≤ c.toNat && c.toNat ≤ 57

/-- Decimal digits of a natural number, most significant first, prepended to
`acc`. -/
def natCharsAux : Nat → List Char → List Char
  | n, acc =>
    if n < 10 then Nat.digitChar n :: acc
    else natCharsAux (n / 10) (Nat.digitChar (n % 10) :: acc)
termination_by n _ => n
decreasing_by
  simp only [not_lt] at *
  omega

/-- Decimal digits of a natural number, most significant first. -/
def natChars (n : Nat) : List Char := natCharsAux n []

/-- The wire form of an integer: optional minus sign, then decimal digits. -/
def intChars (n : Int) : List Char :=
  (if n < 0 then ['-'] else []) ++ natChars n.natAbs

/-- The wire form of a (plain) string: quote, the characters, quote. -/
def strChars (s : String) : List Char := '"' :: (s.data ++ ['"'])

mutual

/-- The byte rendering of the entry loop of `MarshalJSONTo` through the
external compact encoder: `"key":value` members separated by commas. -/
def serializeEntries : List (Entry JValue) → List Char
  | [] => []
  | ⟨k, v⟩ :: rest => strChars k ++ ':' :: (serializeValue v ++ serializeEntriesTail rest)
termination_by l => 2 * sizeOf l
decreasing_by
  all_goals simp [List.cons.sizeOf_spec, Entry.mk.sizeOf_spec, Prod.mk.sizeOf_spec,
    JValue.obj.sizeOf_spec, JValue.arr.sizeOf_spec, JValue.map.sizeOf_spec, sizeOf_sortPairs]
  all_goals omega

/-- Second and later members, each preceded by a comma. -/
def serializeEntriesTail : List (Entry JValue) → List Char
  | [] => []
  | ⟨k, v⟩ :: rest =>
      ',' :: (strChars k ++ ':' :: (serializeValue v ++ serializeEntriesTail rest))
termination_by l => 2 * sizeOf l
decreasing_by
  all_goals simp [List.cons.sizeOf_spec, Entry.mk.sizeOf_spec, Prod.mk.sizeOf_spec,
    JValue.obj.sizeOf_spec, JValue.arr.sizeOf_spec, JValue.map.sizeOf_spec, sizeOf_sortPairs]
  all_goals omega

/-- The byte rendering of one value under the marshal dispatch — ordered
objects emit their entries in stored order, plain mappings emit sorted (the
deterministic mode), scalars in canonical form, all compact. -/
def serializeValue : JValue → List Char
  | .null => 'n' :: ['u', 'l', 'l']
  | .bool true => 't' :: ['r', 'u', 'e']
  | .bool false => 'f' :: ['a', 'l', 's', 'e']
  | .num n => intChars n
  | .str s => strChars s
  | .arr xs => '[' :: (serializeElems xs ++ [']'])
  | .obj es => '{' :: (serializeEntries es ++ ['}'])
  | .map ps => '{' :: (serializePairs (sortPairs ps) ++ ['}'])
termination_by v => 2 * sizeOf v + 1
decreasing_by
  all_goals simp [List.cons.sizeOf_spec, Entry.mk.sizeOf_spec, Prod.mk.sizeOf_spec,
    JValue.obj.sizeOf_spec, JValue.arr.sizeOf_spec, JValue.map.sizeOf_spec, sizeOf_sortPairs]
  all_goals omega

/-- Array elements, comma separated. -/
def serializeElems : List JValue → List Char
  | [] => []
  | v :: rest => serializeValue v ++ serializeElemsTail rest
termination_by l => 2 * sizeOf l
decreasing_by
  all_goals simp [List.cons.sizeOf_spec, Entry.mk.sizeOf_spec, Prod.mk.sizeOf_spec,
    JValue.obj.sizeOf_spec, JValue.arr.sizeOf_spec, JValue.map.sizeOf_spec, sizeOf_sortPairs]
  all_goals omega

/-- Second and later array elements, each preceded by a comma. -/
def serializeElemsTail : List JValue → List Char
  | [] => []
  | v :: rest => ',' :: (serializeValue v ++ serializeElemsTail rest)
termination_by l => 2 * sizeOf l
decreasing_by
  all_goals simp [List.cons.sizeOf_spec, Entry.mk.sizeOf_spec, Prod.mk.sizeOf_spec,
    JValue.obj.sizeOf_spec, JValue.arr.sizeOf_spec, JValue.map.sizeOf_spec, sizeOf_sortPairs]
  all_goals omega

/-- Mapping members in their (sorted) order. -/
def serializePairs : List (String × JValue) → List Char
  | [] => []
  | (k, v) :: rest => strChars k ++ ':' :: (serializeValue v ++ serializePairsTail rest)
termination_by l => 2 * sizeOf l
decreasing_by
  all_goals simp [List.cons.sizeOf_spec, Entry.mk.sizeOf_spec, Prod.mk.sizeOf_spec,
    JValue.obj.sizeOf_spec, JValue.arr.sizeOf_spec, JValue.map.sizeOf_spec, sizeOf_sortPairs]
  all_goals omega

/-- Second and later mapping members, each preceded by a comma. -/
def serializePairsTail : List (String × JValue) → List Char
  | [] => []
  | (k, v) :: rest =>
      ',' :: (strChars k ++ ':' :: (serializeValue v ++ serializePairsTail rest))
termination_by l => 2 * sizeOf l
decreasing_by
  all_goals simp [List.cons.sizeOf_spec, Entry.mk.sizeOf_spec, Prod.mk.sizeOf_spec,
    JValue.obj.sizeOf_spec, JValue.arr.sizeOf_spec, JValue.map.sizeOf_spec, sizeOf_sortPairs]
  all_goals omega

end

/-- `MarshalJSON` (`object.go` lines 163-170): the container rendered to
bytes — BeginObject, the members in stored order, EndObject — through the
external compact encoder. -/
def Object.marshalJSONBytes (o : Object JValue) : List Char :=
  '{' :: (serializeEntries o.entries ++ ['}'])

/-- A whitespace or separator byte the external tokeniser passes over
between tokens. -/
def isSkipChar (c : Char) : Bool :=
  c == ' ' || c == Char.ofNat 9 || c == Char.ofNat 10 || c == Char.ofNat 13 ||
    c == ',' || c == ':'

/-- String-body lexing after the opening quote, no escapes (a backslash is
outside the modelled sub-universe and rejected). -/
def lexStr (acc : List Char) : List Char → Except DecodeError (String × List Char)
  | [] => .error .eof
  | c :: rest =>
      if c = '"' then .ok (String.mk acc, rest)
      else if c = backslashChar then .error .invalidToken
      else lexStr (acc ++ [c]) rest

/-- The maximal digit run at the head of the input, and the remainder. -/
def takeDigits : List Char → List Char × List Char
  | [] => ([], [])
  | c :: rest =>
      if isDigitChar c then
        let (ds, r) := takeDigits rest
        (c :: ds, r)
      else ([], c :: rest)

/-- The natural number a digit run denotes. -/
def digitsToNat (ds : List Char) : Nat :=
  ds.foldl (fun acc c => acc * 10 + (c.toNat - 48)) 0

/-- Recognise a fixed literal at the head of the input; the remainder on
success. -/
def stripLit : List Char → List Char → Option (List Char)
  | [], cs => some cs
  | p :: ps, c :: cs => if c = p then stripLit ps cs else none
  | _ :: _, [] => none

/-- Modelled from the spec: one token lexed from the head of the byte input
by the external token decoder (integers only; a fraction, exponent, escape
or other byte outside the modelled sub-universe is `invalidToken`). -/
def lexToken : List Char → Except DecodeError (Token × List Char)
  | [] => .error .eof
  | c :: cs =>
      if c = '{' then .ok (.beginObject, cs)
      else if c = '}' then .ok (.endObject, cs)
      else if c = '[' then .ok (.beginArray, cs)
      else if c = ']' then .ok (.endArray, cs)
      else if c = '"' then
        match lexStr [] cs with
        | .error e => .error e
        | .ok (s, rest) => .ok (.str s, rest)
      else if c = 'n' then
        match stripLit ['u', 'l', 'l'] cs with
        | some rest => .ok (.null, rest)
        | none => .error .invalidToken
      else if c = 't' then
        match stripLit ['r', 'u', 'e'] cs with
        | some rest => .ok (.bool true, rest)
        | none => .error .invalidToken
      else if c = 'f' then
        match stripLit ['a', 'l', 's', 'e'] cs with
        | some rest => .ok (.bool false, rest)
        | none => .error .invalidToken
      else if c = '-' then
        match takeDigits cs with
        | ([], _) => .error .invalidToken
        | (ds, rest) => .ok (.num (-(digitsToNat ds : Int)), rest)
      else if isDigitChar c then
        match takeDigits cs with
        | (ds, rest) => .ok (.num ((digitsToNat (c :: ds) : Nat) : Int), rest)
      else .error .invalidToken

/-- Modelled from the spec: the external tokeniser over the whole byte
input, skipping whitespace and separators between tokens.  `fuel` only
bounds the recursion; the wrapper supplies more than the input length. -/
def tokenizeF : Nat → List Char → Except DecodeError (List Token)
  | 0, _ => .error .outOfFuel
  | _ + 1, [] => .ok []
  | f + 1, c :: cs =>
      if isSkipChar c then tokenizeF f cs
      else
        match lexToken (c :: cs) with
        | .error e => .error e
        | .ok (t, rest) =>
            match tokenizeF f rest with
            | .error e => .error e
            | .ok ts => .ok (t :: ts)

/-- The external tokeniser at its call site. -/
def tokenize (cs : List Char) : Except DecodeError (List Token) :=
  tokenizeF (cs.length + 1) cs

/-- `UnmarshalJSON` (`object.go` lines 198-201): construct the external
token decoder over the byte input and run `UnmarshalJSONFrom`. -/
def unmarshalJSON (cs : List Char) : Except DecodeError (List (Entry JValue)) :=
  match tokenize cs with
  | .error e => .error e
  | .ok ts =>
      match unmarshalJSONFromT ts with
      | .error e => .error e
      | .ok (es, _) => .ok es

/-- Strictly increasing keys of a mapping (the deterministic order already
in place, with no duplicates). -/
def keysSorted : List (String × JValue) → Bool
  | [] => true
  | [_] => true
  | (k1, v1) :: (k2, v2) :: rest => decide (k1 < k2) && keysSorted ((k2, v2) :: rest)

mutual

/-- A value already in the canonical wire form the marshal path emits:
plain strings, integer scalars, arrays of canonical values, mappings with
strictly sorted keys and canonical values; no ordered-object values (the
decode path never produces them). -/
def canonicalValue : JValue → Bool
  | .null => true
  | .bool _ => true
  | .num _ => true
  | .str s => plainString s
  | .arr xs => canonicalList xs
  | .obj _ => false
  | .map ps => keysSorted ps && canonicalPairs ps
termination_by v => 2 * sizeOf v + 1
decreasing_by
  all_goals simp [List.cons.sizeOf_spec, Entry.mk.sizeOf_spec, Prod.mk.sizeOf_spec,
    JValue.obj.sizeOf_spec, JValue.arr.sizeOf_spec, JValue.map.sizeOf_spec]
  all_goals omega

/-- All elements canonical. -/
def canonicalList : List JValue → Bool
  | [] => true
  | v :: rest => canonicalValue v && canonicalList rest
termination_by l => 2 * sizeOf l
decreasing_by
  all_goals simp [List.cons.sizeOf_spec, Entry.mk.sizeOf_spec, Prod.mk.sizeOf_spec,
    JValue.obj.sizeOf_spec, JValue.arr.sizeOf_spec, JValue.map.sizeOf_spec]
  all_goals omega

/-- All pair keys plain and pair values canonical. -/
def canonicalPairs : List (String × JValue) → Bool
  | [] => true
  | (k, v) :: rest => plainString k && canonicalValue v && canonicalPairs rest
termination_by l => 2 * sizeOf l
decreasing_by
  all_goals simp [List.cons.sizeOf_spec, Entry.mk.sizeOf_spec, Prod.mk.sizeOf_spec,
    JValue.obj.sizeOf_spec, JValue.arr.sizeOf_spec, JValue.map.sizeOf_spec]
  all_goals omega

end

/-- Entries whose keys are plain strings and whose values are canonical. -/
def canonicalEntries : List (Entry JValue) → Bool
  | [] => true
  | ⟨k, v⟩ :: rest => plainString k && canonicalValue v && canonicalEntries rest

/-! Inversion of the byte layer on canonical output. -/

theorem digitChar_spec (d : Nat) (h : d < 10) :
    (Nat.digitChar d).toNat - 48 = d ∧ isDigitChar (Nat.digitChar d) = true := by
  interval_cases d <;> exact ⟨by decide, by decide⟩

theorem natCharsAux_eq (n : Nat) (acc : List Char) :
    natCharsAux n acc =
      if n < 10 then Nat.digitChar n :: acc
      else natCharsAux (n / 10) (Nat.digitChar (n % 10) :: acc) := by
  rw [natCharsAux]

theorem natCharsAux_acc (n : Nat) :
    ∀ acc : List Char, natCharsAux n acc = natCharsAux n [] ++ acc := by
  induction n using Nat.strong_induction_on with
  | _ n ih =>
      intro acc
      rw [natCharsAux_eq n acc, natCharsAux_eq n []]
      by_cases h : n < 10
      · simp [h]
      · rw [if_neg h, if_neg h, ih (n / 10) (by omega),
          ih (n / 10) (by omega) [Nat.digitChar (n % 10)]]
        simp

theorem natChars_unfold (n : Nat) :
    natChars n = (if n < 10 then [] else natChars (n / 10)) ++ [Nat.digitChar (n % 10)] := by
  rw [natChars, natCharsAux_eq]
  by_cases h : n < 10
  · simp [h, Nat.mod_eq_of_lt h]
  · simp only [if_neg h]
    exact natCharsAux_acc (n / 10) [Nat.digitChar (n % 10)]

theorem natChars_ne_nil (n : Nat) : natChars n ≠ [] := by
  rw [natChars_unfold]
  simp

theorem natChars_digits (n : Nat) : ∀ c ∈ natChars n, isDigitChar c = true := by
  induction n using Nat.strong_induction_on with
  | _ n ih =>
      rw [natChars_unfold]
      intro c hc
      rcases List.mem_append.mp hc with h1 | h2
      · by_cases h : n < 10
        · simp [h] at h1
        · exact ih (n / 10) (by omega) c (by simpa [h] using h1)
      · have hc2 : c = Nat.digitChar (n % 10) := by simpa using h2
        subst hc2
        exact (digitChar_spec (n % 10) (Nat.mod_lt _ (by omega))).2

theorem digitsToNat_natChars (n : Nat) : digitsToNat (natChars n) = n := by
  induction n using Nat.strong_induction_on with
  | _ n ih =>
      rw [natChars_unfold, digitsToNat, List.foldl_append]
      by_cases h : n < 10
      · simp only [if_pos h, List.foldl_nil, List.foldl_cons]
        rw [(digitChar_spec (n % 10) (Nat.mod_lt _ (by omega))).1]
        omega
      · simp only [if_neg h, List.foldl_cons, List.foldl_nil]
        have hrec := ih (n / 10) (by omega)
        rw [digitsToNat] at hrec
        rw [hrec, (digitChar_spec (n % 10) (Nat.mod_lt _ (by omega))).1]
        omega

/-- A byte list that cannot extend a digit run: empty or headed by a
non-digit.  Every separator and closing bracket qualifies. -/
def numStop (cs : List Char) : Prop :=
  ∀ c r, cs = c :: r → isDigitChar c = false

theorem takeDigits_stop {cs : List Char} (h : numStop cs) : takeDigits cs = ([], cs) := by
  cases cs with
  | nil => rfl
  | cons c rest => simp [takeDigits, h c rest rfl]

theorem takeDigits_run :
    ∀ (ds : List Char), (∀ c ∈ ds, isDigitChar c = true) →
    ∀ (rest : List Char), takeDigits rest = ([], rest) →
      takeDigits (ds ++ rest) = (ds, rest) := by
  intro ds
  induction ds with
  | nil => intro _ rest h; simpa using h
  | cons c t ih =>
      intro hds rest hrest
      have hc : isDigitChar c = true := hds c (List.mem_cons_self _ _)
      have ht := ih (fun x hx => hds x (List.mem_cons_of_mem _ hx)) rest hrest
      simp [takeDigits, hc, ht]

theorem digit_ne_special {c : Char} (h : isDigitChar c = true) :
    c ≠ '{' ∧ c ≠ '}' ∧ c ≠ '[' ∧ c ≠ ']' ∧ c ≠ '"' ∧ c ≠ 'n' ∧ c ≠ 't' ∧ c ≠ 'f' ∧
      c ≠ '-' ∧ isSkipChar c = false := by
  refine ⟨?_, ?_, ?_, ?_, ?_, ?_, ?_, ?_, ?_, ?_⟩
  · intro hc; rw [hc] at h; exact absurd h (by decide)
  · intro hc; rw [hc] at h; exact absurd h (by decide)
  · intro hc; rw [hc] at h; exact absurd h (by decide)
  · intro hc; rw [hc] at h; exact absurd h (by decide)
  · intro hc; rw [hc] at h; exact absurd h (by decide)
  · intro hc; rw [hc] at h; exact absurd h (by decide)
  · intro hc; rw [hc] at h; exact absurd h (by decide)
  · intro hc; rw [hc] at h; exact absurd h (by decide)
  · intro hc; rw [hc] at h; exact absurd h (by decide)
  · simp only [isDigitChar, Bool.and_eq_true, decide_eq_true_eq] at h
    simp only [isSkipChar]
    have h32 : (' ' : Char).toNat = 32 := by decide
    refine Bool.or_eq_false_iff.mpr ⟨Bool.or_eq_false_iff.mpr ⟨Bool.or_eq_false_iff.mpr
      ⟨Bool.or_eq_false_iff.mpr ⟨Bool.or_eq_false_iff.mpr ⟨?_, ?_⟩, ?_⟩, ?_⟩, ?_⟩, ?_⟩ <;>
      (rw [beq_eq_false_iff_ne]; intro hc; rw [hc] at h; revert h; decide)

theorem lexToken_nat (n : Nat) (rest : List Char) (hrest : numStop rest) :
    lexToken (natChars n ++ rest) = .ok (.num (n : Int), rest) := by
  obtain ⟨c0, t0, h0⟩ : ∃ c0 t0, natChars n = c0 :: t0 := by
    cases hn : natChars n with
    | nil => exact absurd hn (natChars_ne_nil n)
    | cons a b => exact ⟨a, b, rfl⟩
  have hc0 : isDigitChar c0 = true := natChars_digits n c0 (h0 ▸ List.mem_cons_self _ _)
  obtain ⟨h1, h2, h3, h4, h5, h6, h7, h8, h9, _⟩ := digit_ne_special hc0
  have htd : takeDigits (t0 ++ rest) = (t0, rest) :=
    takeDigits_run t0 (fun x hx => natChars_digits n x (h0 ▸ List.mem_cons_of_mem _ hx))
      rest (takeDigits_stop hrest)
  have hdn : digitsToNat (c0 :: t0) = n := by rw [← h0]; exact digitsToNat_natChars n
  rw [h0, List.cons_append, lexToken]
  rw [if_neg h1, if_neg h2, if_neg h3, if_neg h4, if_neg h5, if_neg h6, if_neg h7,
    if_neg h8, if_neg h9, if_pos hc0, htd]
  simp [hdn]

theorem lexToken_int (n : Int) (rest : List Char) (hrest : numStop rest) :
    lexToken (intChars n ++ rest) = .ok (.num n, rest) := by
  by_cases hn : n < 0
  · have harg : intChars n ++ rest = '-' :: (natChars n.natAbs ++ rest) := by
      simp [intChars, hn]
    obtain ⟨c0, t0, h0⟩ : ∃ c0 t0, natChars n.natAbs = c0 :: t0 := by
      cases hx : natChars n.natAbs with
      | nil => exact absurd hx (natChars_ne_nil _)
      | cons a b => exact ⟨a, b, rfl⟩
    have htd : takeDigits (natChars n.natAbs ++ rest) = (natChars n.natAbs, rest) :=
      takeDigits_run _ (natChars_digits _) rest (takeDigits_stop hrest)
    rw [harg, lexToken]
    rw [if_neg (by decide : ¬('-' : Char) = '{'), if_neg (by decide : ¬('-' : Char) = '}'),
      if_neg (by decide : ¬('-' : Char) = '['), if_neg (by decide : ¬('-' : Char) = ']'),
      if_neg (by decide : ¬('-' : Char) = '"'), if_neg (by decide : ¬('-' : Char) = 'n'),
      if_neg (by decide : ¬('-' : Char) = 't'), if_neg (by decide : ¬('-' : Char) = 'f'),
      if_pos (rfl : ('-' : Char) = '-'), htd, h0]
    have hd : digitsToNat (c0 :: t0) = n.natAbs := by
      rw [← h0]; exact digitsToNat_natChars _
    simp only [hd, Except.ok.injEq, Prod.mk.injEq, Token.num.injEq, and_true]
    omega
  · have harg : intChars n ++ rest = natChars n.natAbs ++ rest := by
      simp [intChars, hn]
    rw [harg, lexToken_nat n.natAbs rest hrest, Int.natAbs_of_nonneg (not_lt.mp hn)]

theorem plainChar_facts {c : Char} (h : plainChar c = true) :
    c ≠ '"' ∧ c ≠ backslashChar := by
  simp only [plainChar, Bool.and_eq_true, Bool.not_eq_true', beq_eq_false_iff_ne] at h
  exact ⟨h.1.1, h.1.2⟩

theorem lexStr_plain :
    ∀ (d : List Char), (∀ c ∈ d, plainChar c = true) →
    ∀ (acc rest : List Char),
      lexStr acc (d ++ '"' :: rest) = .ok (String.mk (acc ++ d), rest) := by
  intro d
  induction d with
  | nil =>
      intro _ acc rest
      simp [lexStr]
  | cons c t ih =>
      intro hd acc rest
      obtain ⟨hq, hb⟩ := plainChar_facts (hd c (List.mem_cons_self _ _))
      simp only [List.cons_append, lexStr, if_neg hq, if_neg hb, List.append_eq]
      rw [ih (fun x hx => hd x (List.mem_cons_of_mem _ hx)) (acc ++ [c]) rest]
      simp

theorem lexToken_str (s : String) (hs : plainString s = true) (rest : List Char) :
    lexToken (strChars s ++ rest) = .ok (.str s, rest) := by
  have harg : strChars s ++ rest = '"' :: (s.data ++ ('"' :: rest)) := by
    simp [strChars]
  have hall : ∀ c ∈ s.data, plainChar c = true := by
    intro c hc
    exact List.all_eq_true.mp hs c hc
  rw [harg, lexToken]
  rw [if_neg (by decide : ¬('"' : Char) = '{'), if_neg (by decide : ¬('"' : Char) = '}'),
    if_neg (by decide : ¬('"' : Char) = '['), if_neg (by decide : ¬('"' : Char) = ']'),
    if_pos (rfl : ('"' : Char) = '"'), lexStr_plain s.data hall [] rest]
  simp

theorem lexToken_lbrace (cs : List Char) : lexToken ('{' :: cs) = .ok (.beginObject, cs) := by
  rw [lexToken, if_pos rfl]

theorem lexToken_rbrace (cs : List Char) : lexToken ('}' :: cs) = .ok (.endObject, cs) := by
  rw [lexToken, if_neg (by decide), if_pos rfl]

theorem lexToken_lbracket (cs : List Char) : lexToken ('[' :: cs) = .ok (.beginArray, cs) := by
  rw [lexToken, if_neg (by decide), if_neg (by decide), if_pos rfl]

theorem lexToken_rbracket (cs : List Char) : lexToken (']' :: cs) = .ok (.endArray, cs) := by
  rw [lexToken, if_neg (by decide), if_neg (by decide), if_neg (by decide), if_pos rfl]

theorem lexToken_null (rest : List Char) :
    lexToken ('n' :: 'u' :: 'l' :: 'l' :: rest) = .ok (.null, rest) := by
  rw [lexToken, if_neg (by decide), if_neg (by decide), if_neg (by decide),
    if_neg (by decide), if_neg (by decide), if_pos rfl]
  rfl

theorem lexToken_true (rest : List Char) :
    lexToken ('t' :: 'r' :: 'u' :: 'e' :: rest) = .ok (.bool true, rest) := by
  rw [lexToken, if_neg (by decide), if_neg (by decide), if_neg (by decide),
    if_neg (by decide), if_neg (by decide), if_neg (by decide), if_pos rfl]
  rfl

theorem lexToken_false (rest : List Char) :
    lexToken ('f' :: 'a' :: 'l' :: 's' :: 'e' :: rest) = .ok (.bool false, rest) := by
  rw [lexToken, if_neg (by decide), if_neg (by decide), if_neg (by decide),
    if_neg (by decide), if_neg (by decide), if_neg (by decide), if_neg (by decide),
    if_pos rfl]
  rfl

theorem tokenizeF_skip (f : Nat) (c : Char) (cs : List Char) (hskip : isSkipChar c = true) :
    tokenizeF (f + 1) (c :: cs) = tokenizeF f cs := by
  rw [tokenizeF, if_pos hskip]

theorem tokenizeF_step (f : Nat) (c : Char) (cs rest' : List Char) (t : Token)
    (ts : List Token) (hskip : isSkipChar c = false)
    (hlex : lexToken (c :: cs) = .ok (t, rest'))
    (hrec : tokenizeF f rest' = .ok ts) :
    tokenizeF (f + 1) (c :: cs) = .ok (t :: ts) := by
  rw [tokenizeF, if_neg (by simp [hskip])]
  simp [hlex, hrec]

theorem tokenizeF_mono : ∀ (f : Nat) (cs : List Char) (ts : List Token) (f' : Nat),
    tokenizeF f cs = .ok ts → f ≤ f' → tokenizeF f' cs = .ok ts
  | 0, cs, ts, f', h, _ => by simp [tokenizeF] at h
  | f + 1, [], ts, f', h, hle => by
      obtain ⟨f2, rfl⟩ : ∃ f2, f' = f2 + 1 := ⟨f' - 1, by omega⟩
      simp only [tokenizeF] at h ⊢
      exact h
  | f + 1, c :: cs, ts, f', h, hle => by
      obtain ⟨f2, rfl⟩ : ∃ f2, f' = f2 + 1 := ⟨f' - 1, by omega⟩
      rw [tokenizeF] at h ⊢
      by_cases hskip : isSkipChar c
      · rw [if_pos hskip] at h ⊢
        exact tokenizeF_mono f cs ts f2 h (by omega)
      · rw [if_neg hskip] at h ⊢
        match hlex : lexToken (c :: cs) with
        | .error e => rw [hlex] at h; simp at h
        | .ok (t, rest') =>
            rw [hlex] at h
            simp only at h ⊢
            match hrec : tokenizeF f rest' with
            | .error e => rw [hrec] at h; simp at h
            | .ok ts0 =>
                rw [hrec] at h
                simp only at h
                rw [tokenizeF_mono f rest' ts0 f2 hrec (by omega)]
                simpa using h

theorem serializeEntriesTail_cons (k : String) (v : JValue) (rest : List (Entry JValue)) :
    serializeEntriesTail (⟨k, v⟩ :: rest) = ',' :: serializeEntries (⟨k, v⟩ :: rest) := by
  rw [serializeEntriesTail, serializeEntries]

theorem serializeElemsTail_cons (v : JValue) (rest : List JValue) :
    serializeElemsTail (v :: rest) = ',' :: serializeElems (v :: rest) := by
  rw [serializeElemsTail, serializeElems]

theorem serializePairsTail_cons (k : String) (v : JValue) (rest : List (String × JValue)) :
    serializePairsTail ((k, v) :: rest) = ',' :: serializePairs ((k, v) :: rest) := by
  rw [serializePairsTail, serializePairs]

theorem numStop_entriesTail (es : List (Entry JValue)) (cs : List Char) :
    numStop (serializeEntriesTail es ++ ('}' :: cs)) := by
  intro c r h
  cases es with
  | nil =>
      simp only [serializeEntriesTail, List.nil_append, List.cons.injEq] at h
      rw [← h.1]
      decide
  | cons e rest =>
      obtain ⟨k, v⟩ := e
      rw [serializeEntriesTail_cons, List.cons_append, List.cons.injEq] at h
      rw [← h.1]
      decide

theorem numStop_elemsTail (xs : List JValue) (cs : List Char) :
    numStop (serializeElemsTail xs ++ (']' :: cs)) := by
  intro c r h
  cases xs with
  | nil =>
      simp only [serializeElemsTail, List.nil_append, List.cons.injEq] at h
      rw [← h.1]
      decide
  | cons v rest =>
      rw [serializeElemsTail_cons, List.cons_append, List.cons.injEq] at h
      rw [← h.1]
      decide

theorem numStop_pairsTail (ps : List (String × JValue)) (cs : List Char) :
    numStop (serializePairsTail ps ++ ('}' :: cs)) := by
  intro c r h
  cases ps with
  | nil =>
      simp only [serializePairsTail, List.nil_append, List.cons.injEq] at h
      rw [← h.1]
      decide
  | cons p rest =>
      obtain ⟨k, v⟩ := p
      rw [serializePairsTail_cons, List.cons_append, List.cons.injEq] at h
      rw [← h.1]
      decide

theorem keysSorted_tail {p : String × JValue} {ps : List (String × JValue)}
    (h : keysSorted (p :: ps) = true) : keysSorted ps = true := by
  cases ps with
  | nil => rfl
  | cons q rest =>
      obtain ⟨k1, v1⟩ := p
      obtain ⟨k2, v2⟩ := q
      simp only [keysSorted, Bool.and_eq_true] at h
      exact h.2

theorem keysSorted_head_lt :
    ∀ {ps : List (String × JValue)} {k1 : String} {v1 : JValue},
    keysSorted ((k1, v1) :: ps) = true → ∀ q ∈ ps, k1 < q.1 := by
  intro ps
  induction ps with
  | nil =>
      intro k1 v1 _ q hq
      simp at hq
  | cons p2 rest ih =>
      intro k1 v1 h q hq
      obtain ⟨k2, v2⟩ := p2
      have h12 : k1 < k2 := by
        simp only [keysSorted, Bool.and_eq_true, decide_eq_true_eq] at h
        exact h.1
      have htail : keysSorted ((k2, v2) :: rest) = true := by
        simp only [keysSorted, Bool.and_eq_true] at h
        exact h.2
      rcases List.mem_cons.mp hq with rfl | hq2
      · exact h12
      · exact lt_trans h12 (ih htail q hq2)

theorem sortPairs_eq_self :
    ∀ (ps : List (String × JValue)), keysSorted ps = true → sortPairs ps = ps := by
  intro ps
  induction ps with
  | nil => intro _; rfl
  | cons p rest ih =>
      intro h
      rw [sortPairs, ih (keysSorted_tail h)]
      cases rest with
      | nil => rfl
      | cons q r2 =>
          obtain ⟨k1, v1⟩ := p
          obtain ⟨k2, v2⟩ := q
          simp only [keysSorted, Bool.and_eq_true, decide_eq_true_eq] at h
          rw [insertPair, if_pos (le_of_lt h.1)]

theorem keysSorted_distinct :
    ∀ (ps : List (String × JValue)), keysSorted ps = true → keysDistinct ps = true := by
  intro ps
  induction ps with
  | nil => intro _; rfl
  | cons p rest ih =>
      intro h
      obtain ⟨k1, v1⟩ := p
      have hlt := keysSorted_head_lt h
      simp only [keysDistinct, Bool.and_eq_true]
      refine ⟨List.all_eq_true.mpr fun q hq => ?_, ih (keysSorted_tail h)⟩
      simpa [bne_iff_ne] using ne_of_gt (hlt q hq)

mutual

theorem canonicalValue_exact : ∀ (v : JValue),
    canonicalValue v = true → exactDecodable v = true
  | .null, _ => by simp [exactDecodable]
  | .bool b, _ => by simp [exactDecodable]
  | .num n, _ => by simp [exactDecodable]
  | .str s, _ => by simp [exactDecodable]
  | .obj es, h => by simp [canonicalValue] at h
  | .arr xs, h => by
      simp only [canonicalValue] at h
      simp only [exactDecodable]
      exact canonicalList_exact xs h
  | .map ps, h => by
      simp only [canonicalValue, Bool.and_eq_true] at h
      simp only [exactDecodable, Bool.and_eq_true]
      exact ⟨keysSorted_distinct ps h.1, canonicalPairs_exact ps h.2⟩
termination_by v _ => 2 * sizeOf v + 1
decreasing_by
  all_goals simp [List.cons.sizeOf_spec, Entry.mk.sizeOf_spec, Prod.mk.sizeOf_spec,
    JValue.obj.sizeOf_spec, JValue.arr.sizeOf_spec, JValue.map.sizeOf_spec]
  all_goals omega

theorem canonicalList_exact : ∀ (xs : List JValue),
    canonicalList xs = true → exactDecodableList xs = true
  | [], _ => by simp [exactDecodableList]
  | v :: rest, h => by
      simp only [canonicalList, Bool.and_eq_true] at h
      simp only [exactDecodableList, Bool.and_eq_true]
      exact ⟨canonicalValue_exact v h.1, canonicalList_exact rest h.2⟩
termination_by l _ => 2 * sizeOf l
decreasing_by
  all_goals simp [List.cons.sizeOf_spec, Entry.mk.sizeOf_spec, Prod.mk.sizeOf_spec,
    JValue.obj.sizeOf_spec, JValue.arr.sizeOf_spec, JValue.map.sizeOf_spec]
  all_goals omega

theorem canonicalPairs_exact : ∀ (ps : List (String × JValue)),
    canonicalPairs ps = true → exactDecodablePairs ps = true
  | [], _ => by simp [exactDecodablePairs]
  | (k, v) :: rest, h => by
      simp only [canonicalPairs, Bool.and_eq_true] at h
      simp only [exactDecodablePairs, Bool.and_eq_true]
      exact ⟨canonicalValue_exact v h.1.2, canonicalPairs_exact rest h.2⟩
termination_by l _ => 2 * sizeOf l
decreasing_by
  all_goals simp [List.cons.sizeOf_spec, Entry.mk.sizeOf_spec, Prod.mk.sizeOf_spec,
    JValue.obj.sizeOf_spec, JValue.arr.sizeOf_spec, JValue.map.sizeOf_spec]
  all_goals omega

end

mutual

theorem tokValue : ∀ (v : JValue) (f : Nat) (cs : List Char) (ts : List Token),
    canonicalValue v = true → numStop cs → tokenizeF f cs = .ok ts →
    tokenizeF (f + (serializeValue v).length) (serializeValue v ++ cs)
      = .ok (srcValueTokens v ++ ts)
  | .null, f, cs, ts => by
      intro _ _ h
      have hrec := tokenizeF_mono f cs ts (f + 3) h (by omega)
      have hstep := tokenizeF_step (f + 3) 'n' ('u' :: 'l' :: 'l' :: cs) cs .null ts
        (by decide) (lexToken_null cs) hrec
      simpa [serializeValue, srcValueTokens] using hstep
  | .bool true, f, cs, ts => by
      intro _ _ h
      have hrec := tokenizeF_mono f cs ts (f + 3) h (by omega)
      have hstep := tokenizeF_step (f + 3) 't' ('r' :: 'u' :: 'e' :: cs) cs (.bool true) ts
        (by decide) (lexToken_true cs) hrec
      simpa [serializeValue, srcValueTokens] using hstep
  | .bool false, f, cs, ts => by
      intro _ _ h
      have hrec := tokenizeF_mono f cs ts (f + 4) h (by omega)
      have hstep := tokenizeF_step (f + 4) 'f' ('a' :: 'l' :: 's' :: 'e' :: cs) cs
        (.bool false) ts (by decide) (lexToken_false cs) hrec
      simpa [serializeValue, srcValueTokens] using hstep
  | .num n, f, cs, ts => by
      intro _ hstop h
      obtain ⟨c0, t0, h0, hskip0⟩ : ∃ c0 t0, intChars n = c0 :: t0 ∧ isSkipChar c0 = false := by
        by_cases hn : n < 0
        · exact ⟨'-', natChars n.natAbs, by simp [intChars, hn], by decide⟩
        · cases hx : natChars n.natAbs with
          | nil => exact absurd hx (natChars_ne_nil _)
          | cons a b =>
              refine ⟨a, b, by simp [intChars, hn, hx], ?_⟩
              have ha : isDigitChar a = true :=
                natChars_digits _ a (hx ▸ List.mem_cons_self _ _)
              exact (digit_ne_special ha).2.2.2.2.2.2.2.2.2
      have hlex : lexToken (c0 :: (t0 ++ cs)) = .ok (.num n, cs) := by
        rw [← List.cons_append, ← h0]
        exact lexToken_int n cs hstop
      have hstep := tokenizeF_step f c0 (t0 ++ cs) cs (.num n) ts hskip0 hlex h
      simp only [serializeValue, srcValueTokens, h0, List.cons_append, List.length_cons,
        List.singleton_append]
      exact tokenizeF_mono (f + 1) _ _ _ hstep (by omega)
  | .str s, f, cs, ts => by
      intro hc _ h
      simp only [canonicalValue] at hc
      have hlex : lexToken ('"' :: ((s.data ++ ['"']) ++ cs)) = .ok (.str s, cs) := by
        have := lexToken_str s hc cs
        simpa [strChars, List.cons_append, List.append_assoc] using this
      have hstep := tokenizeF_step f '"' ((s.data ++ ['"']) ++ cs) cs (.str s) ts
        (by decide) hlex h
      simp only [serializeValue, srcValueTokens, strChars, List.cons_append,
        List.append_assoc, List.length_cons, List.length_append, List.length_singleton]
      refine tokenizeF_mono (f + 1) _ _ _ ?_ (by omega)
      simpa [List.append_assoc] using hstep
  | .obj es, f, cs, ts => by
      intro hc _ _
      simp [canonicalValue] at hc
  | .arr xs, f, cs, ts => by
      intro hc _ h
      simp only [canonicalValue] at hc
      have h4 := tokElems xs f cs ts hc h
      have hstep := tokenizeF_step (f + (serializeElems xs).length + 1) '['
        (serializeElems xs ++ (']' :: cs)) (serializeElems xs ++ (']' :: cs))
        Token.beginArray (srcArrTokens xs ++ (Token.endArray :: ts)) (by decide)
        (lexToken_lbracket _) h4
      simp only [serializeValue, srcValueTokens, List.cons_append, List.append_assoc,
        List.singleton_append, List.length_cons, List.length_append, List.length_singleton]
      exact tokenizeF_mono _ _ _ _ hstep (by omega)
  | .map ps, f, cs, ts => by
      intro hc _ h
      simp only [canonicalValue, Bool.and_eq_true] at hc
      have hsort : sortPairs ps = ps := sortPairs_eq_self ps hc.1
      have h6 := tokPairs ps f cs ts hc.2 h
      have hstep := tokenizeF_step (f + (serializePairs ps).length + 1) '{'
        (serializePairs ps ++ ('}' :: cs)) (serializePairs ps ++ ('}' :: cs))
        Token.beginObject (srcPairTokens ps ++ (Token.endObject :: ts)) (by decide)
        (lexToken_lbrace _) h6
      simp only [serializeValue, srcValueTokens, hsort, List.cons_append, List.append_assoc,
        List.singleton_append, List.length_cons, List.length_append, List.length_singleton]
      exact tokenizeF_mono _ _ _ _ hstep (by omega)
termination_by v _ _ _ => 2 * sizeOf v
decreasing_by
  all_goals simp [List.cons.sizeOf_spec, Entry.mk.sizeOf_spec, Prod.mk.sizeOf_spec,
    JValue.obj.sizeOf_spec, JValue.arr.sizeOf_spec, JValue.map.sizeOf_spec]
  all_goals omega

theorem tokElems : ∀ (xs : List JValue) (f : Nat) (cs : List Char) (ts : List Token),
    canonicalList xs = true → tokenizeF f cs = .ok ts →
    tokenizeF (f + (serializeElems xs).length + 1) (serializeElems xs ++ (']' :: cs))
      = .ok (srcArrTokens xs ++ (Token.endArray :: ts))
  | [], f, cs, ts => by
      intro _ h
      have hstep := tokenizeF_step f ']' cs cs Token.endArray ts (by decide)
        (lexToken_rbracket cs) h
      simpa [serializeElems, srcArrTokens] using hstep
  | x :: xs, f, cs, ts => by
      intro hc h
      simp only [canonicalList, Bool.and_eq_true] at hc
      have hT5 := tokElemsTail xs f cs ts hc.2 h
      have h1 := tokValue x (f + (serializeElemsTail xs).length + 1)
        (serializeElemsTail xs ++ (']' :: cs)) (srcArrTokens xs ++ (Token.endArray :: ts))
        hc.1 (numStop_elemsTail xs cs) hT5
      simp only [serializeElems, srcArrTokens, List.cons_append, List.append_assoc,
        List.singleton_append, List.length_cons, List.length_append, List.length_singleton,
        List.length_nil]
      exact tokenizeF_mono _ _ _ _ h1 (by omega)
termination_by xs _ _ _ => 2 * sizeOf xs + 1
decreasing_by
  all_goals simp [List.cons.sizeOf_spec, Entry.mk.sizeOf_spec, Prod.mk.sizeOf_spec,
    JValue.obj.sizeOf_spec, JValue.arr.sizeOf_spec, JValue.map.sizeOf_spec]
  all_goals omega

theorem tokElemsTail : ∀ (xs : List JValue) (f : Nat) (cs : List Char) (ts : List Token),
    canonicalList xs = true → tokenizeF f cs = .ok ts →
    tokenizeF (f + (serializeElemsTail xs).length + 1) (serializeElemsTail xs ++ (']' :: cs))
      = .ok (srcArrTokens xs ++ (Token.endArray :: ts))
  | [], f, cs, ts => by
      intro _ h
      have hstep := tokenizeF_step f ']' cs cs Token.endArray ts (by decide)
        (lexToken_rbracket cs) h
      simpa [serializeElemsTail, srcArrTokens] using hstep
  | x :: xs, f, cs, ts => by
      intro hc h
      have h4 := tokElems (x :: xs) f cs ts hc h
      have hfin : tokenizeF ((f + (serializeElems (x :: xs)).length + 1) + 1)
          (',' :: (serializeElems (x :: xs) ++ (']' :: cs)))
          = .ok (srcArrTokens (x :: xs) ++ (Token.endArray :: ts)) := by
        rw [tokenizeF_skip _ ',' _ (by decide)]
        exact h4
      rw [serializeElemsTail_cons]
      simp only [List.cons_append, List.length_cons]
      exact tokenizeF_mono _ _ _ _ hfin (by omega)
termination_by xs _ _ _ => 2 * sizeOf xs + 2
decreasing_by
  all_goals simp [List.cons.sizeOf_spec, Entry.mk.sizeOf_spec, Prod.mk.sizeOf_spec,
    JValue.obj.sizeOf_spec, JValue.arr.sizeOf_spec, JValue.map.sizeOf_spec]
  all_goals omega

theorem tokEntries : ∀ (es : List (Entry JValue)) (f : Nat) (cs : List Char) (ts : List Token),
    canonicalEntries es = true → tokenizeF f cs = .ok ts →
    tokenizeF (f + (serializeEntries es).length + 1) (serializeEntries es ++ ('}' :: cs))
      = .ok (srcEntryTokens es ++ (Token.endObject :: ts))
  | [], f, cs, ts => by
      intro _ h
      have hstep := tokenizeF_step f '}' cs cs Token.endObject ts (by decide)
        (lexToken_rbrace cs) h
      simpa [serializeEntries, srcEntryTokens] using hstep
  | ⟨k, v⟩ :: rest, f, cs, ts => by
      intro hc h
      simp only [canonicalEntries, Bool.and_eq_true] at hc
      have hT3 := tokEntriesTail rest f cs ts hc.2 h
      have h1 := tokValue v (f + (serializeEntriesTail rest).length + 1)
        (serializeEntriesTail rest ++ ('}' :: cs))
        (srcEntryTokens rest ++ (Token.endObject :: ts))
        hc.1.2 (numStop_entriesTail rest cs) hT3
      have h2 : tokenizeF (((f + (serializeEntriesTail rest).length + 1)
            + (serializeValue v).length) + 1)
          (':' :: (serializeValue v ++ (serializeEntriesTail rest ++ ('}' :: cs))))
          = .ok (srcValueTokens v ++ (srcEntryTokens rest ++ (Token.endObject :: ts))) := by
        rw [tokenizeF_skip _ ':' _ (by decide)]
        exact h1
      have hlex : lexToken ('"' :: ((k.data ++ ['"']) ++
          (':' :: (serializeValue v ++ (serializeEntriesTail rest ++ ('}' :: cs))))))
          = .ok (.str k, ':' :: (serializeValue v ++ (serializeEntriesTail rest ++ ('}' :: cs)))) := by
        have := lexToken_str k hc.1.1 (':' :: (serializeValue v ++
          (serializeEntriesTail rest ++ ('}' :: cs))))
        simpa [strChars, List.cons_append, List.append_assoc] using this
      have hstep := tokenizeF_step _ '"' _ _ (.str k) _ (by decide) hlex h2
      simp only [List.cons_append, List.append_assoc, List.singleton_append] at hstep
      simp only [serializeEntries, srcEntryTokens, strChars, List.cons_append,
        List.append_assoc, List.singleton_append, List.length_cons, List.length_append,
        List.length_singleton, List.length_nil]
      exact tokenizeF_mono _ _ _ _ hstep (by omega)
termination_by es _ _ _ => 2 * sizeOf es + 1
decreasing_by
  all_goals simp [List.cons.sizeOf_spec, Entry.mk.sizeOf_spec, Prod.mk.sizeOf_spec,
    JValue.obj.sizeOf_spec, JValue.arr.sizeOf_spec, JValue.map.sizeOf_spec]
  all_goals omega

theorem tokEntriesTail : ∀ (es : List (Entry JValue)) (f : Nat) (cs : List Char)
    (ts : List Token),
    canonicalEntries es = true → tokenizeF f cs = .ok ts →
    tokenizeF (f + (serializeEntriesTail es).length + 1)
      (serializeEntriesTail es ++ ('}' :: cs))
      = .ok (srcEntryTokens es ++ (Token.endObject :: ts))
  | [], f, cs, ts => by
      intro _ h
      have hstep := tokenizeF_step f '}' cs cs Token.endObject ts (by decide)
        (lexToken_rbrace cs) h
      simpa [serializeEntriesTail, srcEntryTokens] using hstep
  | ⟨k, v⟩ :: rest, f, cs, ts => by
      intro hc h
      have h2 := tokEntries (⟨k, v⟩ :: rest) f cs ts hc h
      have hfin : tokenizeF ((f + (serializeEntries (⟨k, v⟩ :: rest)).length + 1) + 1)
          (',' :: (serializeEntries (⟨k, v⟩ :: rest) ++ ('}' :: cs)))
          = .ok (srcEntryTokens (⟨k, v⟩ :: rest) ++ (Token.endObject :: ts)) := by
        rw [tokenizeF_skip _ ',' _ (by decide)]
        exact h2
      rw [serializeEntriesTail_cons]
      simp only [List.cons_append, List.length_cons]
      exact tokenizeF_mono _ _ _ _ hfin (by omega)
termination_by es _ _ _ => 2 * sizeOf es + 2
decreasing_by
  all_goals simp [List.cons.sizeOf_spec, Entry.mk.sizeOf_spec, Prod.mk.sizeOf_spec,
    JValue.obj.sizeOf_spec, JValue.arr.sizeOf_spec, JValue.map.sizeOf_spec]
  all_goals omega

theorem tokPairs : ∀ (ps : List (String × JValue)) (f : Nat) (cs : List Char)
    (ts : List Token),
    canonicalPairs ps = true → tokenizeF f cs = .ok ts →
    tokenizeF (f + (serializePairs ps).length + 1) (serializePairs ps ++ ('}' :: cs))
      = .ok (srcPairTokens ps ++ (Token.endObject :: ts))
  | [], f, cs, ts => by
      intro _ h
      have hstep := tokenizeF_step f '}' cs cs Token.endObject ts (by decide)
        (lexToken_rbrace cs) h
      simpa [serializePairs, srcPairTokens] using hstep
  | (k, v) :: rest, f, cs, ts => by
      intro hc h
      simp only [canonicalPairs, Bool.and_eq_true] at hc
      have hT7 := tokPairsTail rest f cs ts hc.2 h
      have h1 := tokValue v (f + (serializePairsTail rest).length + 1)
        (serializePairsTail rest ++ ('}' :: cs))
        (srcPairTokens rest ++ (Token.endObject :: ts))
        hc.1.2 (numStop_pairsTail rest cs) hT7
      have h2 : tokenizeF (((f + (serializePairsTail rest).length + 1)
            + (serializeValue v).length) + 1)
          (':' :: (serializeValue v ++ (serializePairsTail rest ++ ('}' :: cs))))
          = .ok (srcValueTokens v ++ (srcPairTokens rest ++ (Token.endObject :: ts))) := by
        rw [tokenizeF_skip _ ':' _ (by decide)]
        exact h1
      have hlex : lexToken ('"' :: ((k.data ++ ['"']) ++
          (':' :: (serializeValue v ++ (serializePairsTail rest ++ ('}' :: cs))))))
          = .ok (.str k, ':' :: (serializeValue v ++ (serializePairsTail rest ++ ('}' :: cs)))) := by
        have := lexToken_str k hc.1.1 (':' :: (serializeValue v ++
          (serializePairsTail rest ++ ('}' :: cs))))
        simpa [strChars, List.cons_append, List.append_assoc] using this
      have hstep := tokenizeF_step _ '"' _ _ (.str k) _ (by decide) hlex h2
      simp only [List.cons_append, List.append_assoc, List.singleton_append] at hstep
      simp only [serializePairs, srcPairTokens, strChars, List.cons_append,
        List.append_assoc, List.singleton_append, List.length_cons, List.length_append,
        List.length_singleton, List.length_nil]
      exact tokenizeF_mono _ _ _ _ hstep (by omega)
termination_by ps _ _ _ => 2 * sizeOf ps + 1
decreasing_by
  all_goals simp [List.cons.sizeOf_spec, Entry.mk.sizeOf_spec, Prod.mk.sizeOf_spec,
    JValue.obj.sizeOf_spec, JValue.arr.sizeOf_spec, JValue.map.sizeOf_spec]
  all_goals omega

theorem tokPairsTail : ∀ (ps : List (String × JValue)) (f : Nat) (cs : List Char)
    (ts : List Token),
    canonicalPairs ps = true → tokenizeF f cs = .ok ts →
    tokenizeF (f + (serializePairsTail ps).length + 1)
      (serializePairsTail ps ++ ('}' :: cs))
      = .ok (srcPairTokens ps ++ (Token.endObject :: ts))
  | [], f, cs, ts => by
      intro _ h
      have hstep := tokenizeF_step f '}' cs cs Token.endObject ts (by decide)
        (lexToken_rbrace cs) h
      simpa [serializePairsTail, srcPairTokens] using hstep
  | (k, v) :: rest, f, cs, ts => by
      intro hc h
      have h2 := tokPairs ((k, v) :: rest) f cs ts hc h
      have hfin : tokenizeF ((f + (serializePairs ((k, v) :: rest)).length + 1) + 1)
          (',' :: (serializePairs ((k, v) :: rest) ++ ('}' :: cs)))
          = .ok (srcPairTokens ((k, v) :: rest) ++ (Token.endObject :: ts)) := by
        rw [tokenizeF_skip _ ',' _ (by decide)]
        exact h2
      rw [serializePairsTail_cons]
      simp only [List.cons_append, List.length_cons]
      exact tokenizeF_mono _ _ _ _ hfin (by omega)
termination_by ps _ _ _ => 2 * sizeOf ps + 2
decreasing_by
  all_goals simp [List.cons.sizeOf_spec, Entry.mk.sizeOf_spec, Prod.mk.sizeOf_spec,
    JValue.obj.sizeOf_spec, JValue.arr.sizeOf_spec, JValue.map.sizeOf_spec]
  all_goals omega

end

theorem tokenizeF_nil : tokenizeF 1 [] = .ok [] := rfl

theorem tokenize_marshal (es : List (Entry JValue)) (h : canonicalEntries es = true) :
    tokenize ((Object.mk es).marshalJSONBytes)
      = .ok (Token.beginObject :: (srcEntryTokens es ++ [Token.endObject])) := by
  have h2 := tokEntries es 1 [] [] h tokenizeF_nil
  have hstep := tokenizeF_step (1 + (serializeEntries es).length + 1) '{'
    (serializeEntries es ++ ('}' :: [])) (serializeEntries es ++ ('}' :: []))
    Token.beginObject (srcEntryTokens es ++ (Token.endObject :: [])) (by decide)
    (lexToken_lbrace _) h2
  simp only [tokenize, Object.marshalJSONBytes, List.length_cons, List.length_append,
    List.length_singleton]
  exact tokenizeF_mono _ _ _ _ hstep (by omega)

theorem canonicalEntries_values :
    ∀ es : List (Entry JValue), canonicalEntries es = true →
      ∀ e ∈ es, exactDecodable e.Value = true := by
  intro es
  induction es with
  | nil =>
      intro _ e he
      cases he
  | cons e0 rest ih =>
      obtain ⟨k, v⟩ := e0
      intro h e he
      simp only [canonicalEntries, Bool.and_eq_true] at h
      rcases List.mem_cons.mp he with rfl | hmem
      · exact canonicalValue_exact v h.1.2
      · exact ih h.2 e hmem

/-- C2 (amended): restricted to byte strings in the canonical compact form
the marshal path itself emits — a well-formed JSON object with no
inter-token whitespace, plain (escape-free) strings, integer numerals
without leading zeros, signs or fraction/exponent parts, and nested plain
mappings already in sorted key order — the symmetry property holds:
`Unmarshal` of such a byte string succeeds, and `Marshal` of any container
it produces equals the input byte-for-byte.  Outside that canonical form
the property fails (see the counterexample): the decoder accepts
whitespace the encoder never re-emits. -/
theorem marshal_unmarshal_roundtrip (es : List (Entry JValue))
    (h : canonicalEntries es = true) :
    unmarshalJSON ((Object.mk es).marshalJSONBytes) = .ok es
      ∧ ∀ out : List (Entry JValue),
          unmarshalJSON ((Object.mk es).marshalJSONBytes) = .ok out →
            (Object.mk out).marshalJSONBytes = (Object.mk es).marshalJSONBytes := by
  have htok := tokenize_marshal es h
  have hvals := canonicalEntries_values es h
  have hge := srcEntryTokens_length_ge es
  have hloop := unmarshalLoop_complete es []
    ((srcEntryTokens es ++ Token.endObject :: ([] : List Token)).length + 1) [] hvals
    (by simp only [List.length_append, List.length_cons]; omega)
  have hfromT : unmarshalJSONFromT
      (Token.beginObject :: (srcEntryTokens es ++ [Token.endObject]))
      = .ok (es, []) := by
    simp only [unmarshalJSONFromT, readToken, Token.kind, if_pos]
    simpa using hloop
  have hfirst : unmarshalJSON ((Object.mk es).marshalJSONBytes) = .ok es := by
    simp only [unmarshalJSON, htok, hfromT]
  refine ⟨hfirst, ?_⟩
  intro out hout
  have h2 : es = out := by
    have h3 := hfirst.symm.trans hout
    simpa using h3
  rw [← h2]

/-- Witness for C2 (amended): the canonical two-member input decodes back
to itself and re-encodes to the same bytes. -/
theorem marshal_unmarshal_roundtrip_witness :
    canonicalEntries [⟨"a", JValue.num 1⟩, ⟨"b", JValue.null⟩] = true
      ∧ unmarshalJSON ((Object.mk
            [⟨"a", JValue.num 1⟩, ⟨"b", JValue.null⟩]).marshalJSONBytes)
          = .ok [⟨"a", JValue.num 1⟩, ⟨"b", JValue.null⟩] :=
  ⟨by simp [canonicalEntries, canonicalValue, plainString, plainChar]; decide,
    (marshal_unmarshal_roundtrip [⟨"a", JValue.num 1⟩, ⟨"b", JValue.null⟩]
      (by simp [canonicalEntries, canonicalValue, plainString, plainChar]; decide)).1⟩

/-- Counterexample to C2 as stated: the byte string with one space after
the colon is a well-formed JSON object with a plain scalar value, its
`Unmarshal` succeeds, but `Marshal` of the produced container emits the
compact form, which differs from the input byte-for-byte. -/
theorem whitespace_breaks_roundtrip :
    unmarshalJSON ['{', '"', 'a', '"', ':', ' ', '1', '}']
        = .ok [⟨"a", JValue.num 1⟩]
      ∧ (Object.mk [⟨"a", JValue.num 1⟩]).marshalJSONBytes
          = ['{', '"', 'a', '"', ':', '1', '}']
      ∧ (['{', '"', 'a', '"', ':', '1', '}'] : List Char)
          ≠ ['{', '"', 'a', '"', ':', ' ', '1', '}'] := by
  refine ⟨rfl, ?_, by decide⟩
  simp [Object.marshalJSONBytes, serializeEntries, serializeValue, serializeEntriesTail,
    intChars, strChars, natChars, natCharsAux]
  decide

end OrderedObject
